import Mathlib

/-!
Verification development for the design-token MCP server (src/index.js).

Strings are modelled as `List Char` (`Str`).  Each JavaScript regular
expression used by the source is embedded as a small recursive scanner with
the same leftmost-match semantics.  Pure logic (value classification, token
name decomposition, the stylesheet line parser, search, rule loading and the
usage validation engine) is translated function-by-function; file-system
reads are replaced by explicit parameters holding the content they would
return.
-/

abbrev Str := List Char

/-- JavaScript `\s` / `String.trim` whitespace, restricted to ASCII. -/
def isWS (c : Char) : Bool :=
  c = ' ' || c = '\t' || c = '\n' || c = '\r' || c = '\x0b' || c = '\x0c'

/-- The character class `[a-zA-Z0-9-]` used by the reference regexes. -/
def wc (c : Char) : Bool := c.isAlphanum || c = '-'

/-- The character class `[a-zA-Z0-9_-]` of the declaration regex. -/
def nameCh (c : Char) : Bool := c.isAlphanum || c = '-' || c = '_'

/-- `startsWithL pre l` : does `l` begin with `pre`? (JS `String.startsWith`). -/
def startsWithL : Str → Str → Bool
  | [], _ => true
  | _ :: _, [] => false
  | p :: ps, c :: cs => p = c && startsWithL ps cs

/-- JS `String.includes`: does `l` contain `pat` as a contiguous substring? -/
def containsSub (pat : Str) : Str → Bool
  | [] => pat.isEmpty
  | c :: cs => startsWithL pat (c :: cs) || containsSub pat cs

/-- JS `String.trim` (ASCII whitespace). -/
def trimL (l : Str) : Str := ((l.dropWhile isWS).reverse.dropWhile isWS).reverse

/-- Helper of `collapseWS`: the flag records whether the scanner is inside a
whitespace run whose single replacement space was already emitted. -/
def collapseAux : Bool → Str → Str
  | _, [] => []
  | inRun, c :: cs =>
    if isWS c then
      if inRun then collapseAux true cs else ' ' :: collapseAux true cs
    else c :: collapseAux false cs

/-- JS `.replace(/\s+/g, " ")` : collapse every whitespace run to one space. -/
def collapseWS (l : Str) : Str := collapseAux false l

/-- JS `String.toLowerCase` (ASCII letters). -/
def lowerL (l : Str) : Str := l.map Char.toLower

/-- Result record of `classifyTokenValue`. -/
structure ClassifyResult where
  valueType : Str
  referencedToken : Option Str
deriving Repr, DecidableEq

/-- Does the regex `calc\s*\(` match at the head of `l`? -/
def calcAt (l : Str) : Bool :=
  startsWithL "calc".toList l &&
    match (l.drop 4).dropWhile isWS with
    | '(' :: _ => true
    | _ => false

/-- `RegExp.test` of `calc\s*\(` : search every position. -/
def testCalcParen : Str → Bool
  | [] => false
  | c :: cs => calcAt (c :: cs) || testCalcParen cs

/-- Does the regex `var\s*\(` match at the head of `l`? -/
def varAt (l : Str) : Bool :=
  startsWithL "var".toList l &&
    match (l.drop 3).dropWhile isWS with
    | '(' :: _ => true
    | _ => false

/-- `RegExp.test` of `var\s*\(` : search every position. -/
def testVarParen : Str → Bool
  | [] => false
  | c :: cs => varAt (c :: cs) || testVarParen cs

/-- Match of `var\(\s*(--[a-zA-Z0-9-]+)` at the head of `l`, returning the
captured group. -/
def varRefAt (l : Str) : Option Str :=
  if startsWithL "var(".toList l then
    match (l.drop 4).dropWhile isWS with
    | '-' :: '-' :: c :: cs =>
      if wc c then some ('-' :: '-' :: c :: cs.takeWhile wc) else none
    | _ => none
  else none

/-- `String.match` of `var\(\s*(--[a-zA-Z0-9-]+)` (leftmost match). -/
def findVarRef : Str → Option Str
  | [] => none
  | c :: cs =>
    match varRefAt (c :: cs) with
    | some r => some r
    | none => findVarRef cs

/-- Source `classifyTokenValue`: classify a raw CSS value as
literal / global-reference / component-reference / calculated. -/
def classifyTokenValue (value : Str) : ClassifyResult :=
  let trimmed := trimL value
  if testCalcParen trimmed && testVarParen trimmed then
    ⟨"calculated".toList, findVarRef trimmed⟩
  else
    match varRefAt trimmed with
    | some refToken =>
      if startsWithL "--dsa-".toList refToken || startsWithL "--l-".toList refToken then
        ⟨"component-reference".toList, some refToken⟩
      else
        ⟨"global-reference".toList, some refToken⟩
    | none =>
      if testVarParen trimmed then
        match findVarRef trimmed with
        | some refToken =>
          if startsWithL "--dsa-".toList refToken || startsWithL "--l-".toList refToken then
            ⟨"component-reference".toList, some refToken⟩
          else
            ⟨"global-reference".toList, some refToken⟩
        | none => ⟨"literal".toList, none⟩
      else ⟨"literal".toList, none⟩

example : classifyTokenValue "var(--ks-color-fg)".toList =
    ⟨"global-reference".toList, some "--ks-color-fg".toList⟩ := by decide

example : classifyTokenValue "var(--dsa-button--color)".toList =
    ⟨"component-reference".toList, some "--dsa-button--color".toList⟩ := by decide

example : classifyTokenValue "calc(var(--ks-spacing-m) * 2)".toList =
    ⟨"calculated".toList, some "--ks-spacing-m".toList⟩ := by decide

example : classifyTokenValue "#ff0000".toList = ⟨"literal".toList, none⟩ := by decide

example : classifyTokenValue "calc(var ( --x))".toList =
    ⟨"calculated".toList, none⟩ := by decide

/-- Source `STATES`: interaction-state suffixes recognised by the decomposer. -/
def STATES : List Str :=
  ["hover".toList, "active".toList, "focus".toList, "checked".toList,
   "selected".toList, "disabled".toList, "open".toList]

/-- `remainder.lastIndexOf("--")` as a split at the LAST occurrence:
`lastDD l = some (b, a)` with `l = b ++ "--" ++ a`. -/
def lastDD : Str → Option (Str × Str)
  | [] => none
  | [_] => none
  | a :: b :: rest =>
    match lastDD (b :: rest) with
    | some (pre, post) => some (a :: pre, post)
    | none => if a = '-' && b = '-' then some ([], rest) else none

/-- JS `String.endsWith`. -/
def endsWithL (suf l : Str) : Bool := startsWithL suf.reverse l.reverse

/-- The state-stripping loop of `parseComponentTokenName`: remove at most one
trailing `_state` suffix, trying the states in `STATES` order. -/
def stripState (pp : Str) : Str × Option Str :=
  match STATES.find? (fun s => endsWithL ('_' :: s) pp) with
  | some s => (pp.take (pp.length - (s.length + 1)), some s)
  | none => (pp, none)

/-- Head test `__[a-zA-Z0-9-]` of the element regex: at a match the returned
pair is the first run character and the remaining text. -/
def sepStep : Str → Option (Char × Str)
  | a :: b :: c :: r =>
    if a = '_' && b = '_' && wc c then some (c, r) else none
  | _ => none

/-- Fuelled greedy group body of `__([a-zA-Z0-9-]+(?:__[a-zA-Z0-9-]+)*)`:
maximal run of word characters, then repeatedly a literal `__` followed by
another run.  Fuel `l.length` always suffices. -/
def munchF : Nat → Str → Str
  | 0, l => l.takeWhile wc
  | fuel + 1, l =>
    match sepStep (l.dropWhile wc) with
    | some (c, r) => l.takeWhile wc ++ '_' :: '_' :: munchF fuel (c :: r)
    | none => l.takeWhile wc

/-- Greedy group body of the element regex. -/
def munchRuns (l : Str) : Str := munchF l.length l

/-- Leftmost match of `__([a-zA-Z0-9-]+(?:__[a-zA-Z0-9-]+)*)` (element regex):
try the pattern at the head, else advance one position. -/
def elemSearch : Str → Option Str
  | [] => none
  | a :: rest =>
    match sepStep (a :: rest) with
    | some (c, r) => some (munchRuns (c :: r))
    | none => elemSearch rest

/-- JS `replace(/__/g, ".")`. -/
def replaceDD : Str → Str
  | [] => []
  | [a] => [a]
  | a :: b :: rest =>
    if a = '_' && b = '_' then '.' :: replaceDD rest
    else a :: replaceDD (b :: rest)

/-- Captured group `[a-zA-Z][a-zA-Z0-9-]*` of the variant regex. -/
def varGroup (c : Char) (cs : Str) : Str := c :: cs.takeWhile wc

/-- Head test `[^_]_[a-zA-Z]` of the variant regex: at a match the returned
pair is the first group character and the remaining text. -/
def varStep : Str → Option (Char × Str)
  | a :: b :: c :: r =>
    if a ≠ '_' && b = '_' && c.isAlpha then some (c, r) else none
  | _ => none

/-- The `[^_]_([a-zA-Z][a-zA-Z0-9-]*)` alternative of the variant regex,
tried at each successive start position. -/
def varGen : Str → Option Str
  | [] => none
  | a :: rest =>
    match varStep (a :: rest) with
    | some (c, r) => some (varGroup c r)
    | none => varGen rest

/-- Leftmost match of `(?:^|[^_])_([a-zA-Z][a-zA-Z0-9-]*)` (variant regex):
the `^` alternative applies only at position 0. -/
def varSearch (l : Str) : Option Str :=
  match l with
  | '_' :: c :: rest => if c.isAlpha then some (varGroup c rest) else varGen l
  | _ => varGen l

/-- Fuelled length matched by `(?:-[a-z]+)*` (greedy) at the head of `l`.
Fuel `l.length` always suffices. -/
def dashRunsF : Nat → Str → Nat
  | 0, _ => 0
  | fuel + 1, l =>
    match l with
    | '-' :: rest =>
      let m := (rest.takeWhile Char.isLower).length
      if m = 0 then 0 else 1 + m + dashRunsF fuel (rest.drop m)
    | _ => 0

/-- Length matched by `(?:-[a-z]+)*` (greedy) at the head of `l`. -/
def dashRuns (l : Str) : Nat := dashRunsF l.length l

/-- Fallback of the prefix stripper: strip a leading
`--(?:dsa|l)-[a-z]+(?:-[a-z]+)*` match, if any. -/
def fallbackStrip (name : Str) : Str :=
  let core : Option (Nat × Str) :=
    if startsWithL "--dsa-".toList name then some (6, name.drop 6)
    else if startsWithL "--l-".toList name then some (4, name.drop 4)
    else none
  match core with
  | some (k, rest) =>
    let n := (rest.takeWhile Char.isLower).length
    if n = 0 then name
    else name.drop (k + n + dashRuns (rest.drop n))
  | none => name

/-- Prefix stripping of `parseComponentTokenName`: try
`--dsa-{comp}`, `--l-{comp}`, `--dsa-{comp with _ for -}`, then the fallback. -/
def stripLead (name comp : Str) : Str :=
  let p0 := "--dsa-".toList ++ comp
  let p1 := "--l-".toList ++ comp
  let p2 := "--dsa-".toList ++ comp.map (fun c => if c = '-' then '_' else c)
  if startsWithL p0 name then name.drop p0.length
  else if startsWithL p1 name then name.drop p1.length
  else if startsWithL p2 name then name.drop p2.length
  else fallbackStrip name

/-- Split the remainder at the last `--` (source `lastIndexOf("--")`), the
`-1` case leaving everything in the property part. -/
def splitProp (remainder : Str) : Str × Str :=
  match lastDD remainder with
  | some (b, a) => (b, a)
  | none => ([], remainder)

/-- The property segment (after the last `--`) of a token name. -/
def propertyPartOf (name comp : Str) : Str := (splitProp (stripLead name comp)).2

/-- The structure segment (before the last `--`) of a token name. -/
def beforePropOf (name comp : Str) : Str := (splitProp (stripLead name comp)).1

/-- Result of `parseComponentTokenName`. -/
structure ParsedName where
  element : Option Str
  variant : Option Str
  cssProperty : Str
  state : Option Str
deriving Repr, DecidableEq

/-- Source `parseComponentTokenName`: decompose a component token name into
element / variant / cssProperty / state, given the known component slug. -/
def parseComponentTokenName (name comp : Str) : ParsedName :=
  let bp := beforePropOf name comp
  let pp := propertyPartOf name comp
  let pst := stripState pp
  let css := if pst.1.isEmpty then "unknown".toList else pst.1
  let ev : Option Str × Option Str :=
    if bp.isEmpty then (none, none)
    else ((elemSearch bp).map replaceDD, varSearch bp)
  ⟨ev.1, ev.2, css, pst.2⟩

example :
    parseComponentTokenName "--dsa-button_primary--background-color_hover".toList
      "button".toList =
    ⟨none, some "primary".toList, "background-color".toList, some "hover".toList⟩ := by
  decide

example :
    parseComponentTokenName "--dsa-contact__copy--font-size".toList "contact".toList =
    ⟨some "copy".toList, none, "font-size".toList, none⟩ := by decide

example :
    parseComponentTokenName "--dsa-text__highlight__mark_secondary--color_hover".toList
      "text".toList =
    ⟨some "highlight.mark".toList, some "secondary".toList, "color".toList,
      some "hover".toList⟩ := by decide

example :
    parseComponentTokenName "--l-split-even--gap".toList "split-even".toList =
    ⟨none, none, "gap".toList, none⟩ := by decide

theorem startsWithL_iff (p : Str) : ∀ l, startsWithL p l = true ↔ p <+: l := by
  induction p with
  | nil => intro l; simp [startsWithL]
  | cons a ps ih =>
    intro l
    cases l with
    | nil => simp [startsWithL]
    | cons c cs =>
      rw [startsWithL, List.cons_prefix_cons, Bool.and_eq_true, decide_eq_true_iff, ih]

theorem endsWithL_iff (s l : Str) : endsWithL s l = true ↔ s <:+ l := by
  rw [endsWithL, startsWithL_iff, List.reverse_prefix]

/-- C2 counterexample: on `"calc(var ( --x))"` the classifier returns
`valueType = "calculated"` with `referencedToken = null`, refuting
"`referencedToken` is non-null iff `valueType ≠ literal`". -/
theorem claim2_counterexample :
    (classifyTokenValue "calc(var ( --x))".toList).valueType ≠ "literal".toList ∧
    (classifyTokenValue "calc(var ( --x))".toList).referencedToken = none := by
  decide

/-- C2 amended: classification is total (one of the four `valueType`s always
results); `referencedToken` is null for `literal`, non-null for the two
reference types, and for `calculated` it is exactly the leftmost
`var(--name` reference recovered from the trimmed text, which can be null. -/
theorem claim2_amended (v : Str) :
    ((classifyTokenValue v).valueType = "literal".toList ∨
      (classifyTokenValue v).valueType = "global-reference".toList ∨
      (classifyTokenValue v).valueType = "component-reference".toList ∨
      (classifyTokenValue v).valueType = "calculated".toList) ∧
    ((classifyTokenValue v).valueType = "literal".toList →
      (classifyTokenValue v).referencedToken = none) ∧
    ((classifyTokenValue v).valueType = "global-reference".toList ∨
        (classifyTokenValue v).valueType = "component-reference".toList →
      (classifyTokenValue v).referencedToken ≠ none) ∧
    ((classifyTokenValue v).valueType = "calculated".toList →
      (classifyTokenValue v).referencedToken = findVarRef (trimL v)) := by
  unfold classifyTokenValue
  dsimp only
  repeat' split
  all_goals refine ⟨?_, ?_, ?_, ?_⟩
  all_goals dsimp only
  all_goals
    first
      | exact Or.inl rfl
      | exact Or.inr (Or.inl rfl)
      | exact Or.inr (Or.inr (Or.inl rfl))
      | exact Or.inr (Or.inr (Or.inr rfl))
      | (intro h
         first
          | exact absurd h (by decide)
          | exact h.elim (fun h2 => absurd h2 (by decide))
              (fun h2 => absurd h2 (by decide))
          | exact rfl
          | exact Option.some_ne_none _)

theorem stripState_some (pp q s : Str) (h : stripState pp = (q, some s)) :
    s ∈ STATES ∧ pp = q ++ '_' :: s := by
  cases hf : STATES.find? (fun s => endsWithL ('_' :: s) pp) with
  | none =>
    have hs : stripState pp = (pp, none) := by unfold stripState; rw [hf]
    rw [hs] at h
    simp at h
  | some s0 =>
    have hs : stripState pp = (pp.take (pp.length - (s0.length + 1)), some s0) := by
      unfold stripState; rw [hf]
    rw [hs] at h
    have h1 : pp.take (pp.length - (s0.length + 1)) = q := congrArg Prod.fst h
    have h2 : s0 = s := by
      have := congrArg Prod.snd h
      simpa using this
    subst h2
    have hmem := List.mem_of_find?_eq_some hf
    have hsuf : endsWithL ('_' :: s0) pp = true := by
      have := List.find?_some hf
      simpa using this
    rw [endsWithL_iff] at hsuf
    obtain ⟨q', hq'⟩ := hsuf
    have hlen : pp.length - (s0.length + 1) = q'.length := by
      rw [← hq']
      simp
    rw [hlen, ← hq', List.take_left] at h1
    exact ⟨hmem, by rw [← hq', h1]⟩

theorem stripState_none (pp : Str) (h : (stripState pp).2 = none) :
    (stripState pp).1 = pp ∧ ∀ s ∈ STATES, endsWithL ('_' :: s) pp = false := by
  cases hf : STATES.find? (fun s => endsWithL ('_' :: s) pp) with
  | some s0 =>
    have hs : stripState pp = (pp.take (pp.length - (s0.length + 1)), some s0) := by
      unfold stripState; rw [hf]
    rw [hs] at h
    simp at h
  | none =>
    have hs : stripState pp = (pp, none) := by unfold stripState; rw [hf]
    rw [hs]
    refine ⟨rfl, fun s hs2 => ?_⟩
    have := List.find?_eq_none.mp hf s hs2
    simpa using this

/-- C3: decomposing `--dsa-button_primary--background-color_hover` with known
component `button` yields element `null`, variant `primary`,
cssProperty `background-color`, state `hover`; and in general the decomposer
strips at most one trailing `_state` suffix, only for states in the fixed
`STATES` set, defaulting `cssProperty` to `"unknown"` when nothing remains. -/
theorem claim3_decomposition :
    parseComponentTokenName "--dsa-button_primary--background-color_hover".toList
        "button".toList =
      ⟨none, some "primary".toList, "background-color".toList, some "hover".toList⟩ ∧
    ∀ name comp,
      ((parseComponentTokenName name comp).state = none →
        (parseComponentTokenName name comp).cssProperty =
          (if (propertyPartOf name comp).isEmpty then "unknown".toList
           else propertyPartOf name comp) ∧
        ∀ s ∈ STATES, endsWithL ('_' :: s) (propertyPartOf name comp) = false) ∧
      (∀ s, (parseComponentTokenName name comp).state = some s →
        s ∈ STATES ∧
        ∃ q, propertyPartOf name comp = q ++ '_' :: s ∧
          (parseComponentTokenName name comp).cssProperty =
            (if q.isEmpty then "unknown".toList else q)) := by
  constructor
  · decide
  · intro name comp
    have hps : (parseComponentTokenName name comp).state =
        (stripState (propertyPartOf name comp)).2 := rfl
    have hpc : (parseComponentTokenName name comp).cssProperty =
        (if (stripState (propertyPartOf name comp)).1.isEmpty then "unknown".toList
         else (stripState (propertyPartOf name comp)).1) := rfl
    constructor
    · intro h
      rw [hps] at h
      obtain ⟨h1, h2⟩ := stripState_none _ h
      exact ⟨by rw [hpc, h1], h2⟩
    · intro s h
      rw [hps] at h
      have h' : stripState (propertyPartOf name comp) =
          ((stripState (propertyPartOf name comp)).1, some s) := by rw [← h]
      obtain ⟨hmem, heq⟩ := stripState_some _ _ _ h'
      exact ⟨hmem, ⟨(stripState (propertyPartOf name comp)).1, heq, hpc⟩⟩

/-- Witness for C3's general part at a concrete input. -/
theorem claim3_decomposition_witness :
    "hover".toList ∈ STATES ∧
    ∃ q, propertyPartOf "--dsa-button--color_hover".toList "button".toList =
        q ++ '_' :: "hover".toList ∧
      (parseComponentTokenName "--dsa-button--color_hover".toList
          "button".toList).cssProperty =
        (if q.isEmpty then "unknown".toList else q) :=
  (claim3_decomposition.2 "--dsa-button--color_hover".toList "button".toList).2
    "hover".toList (by decide)

/-- `__`-separated join of element runs (the raw element regex group shape). -/
def interDD : List Str → Str
  | [] => []
  | [r] => r
  | r :: rs => r ++ '_' :: '_' :: interDD rs

/-- `.`-separated join of element runs (the decomposed `element` field shape). -/
def interDots : List Str → Str
  | [] => []
  | [r] => r
  | r :: rs => r ++ '.' :: interDots rs

/-- The `[__{element}]*` part of a grammar-conforming name. -/
def elemsPart (elems : List Str) : Str :=
  elems.foldr (fun r acc => '_' :: '_' :: (r ++ acc)) []

/-- `[_{x}]` : an optional single-underscore-introduced run. -/
def optUnderscore : Option Str → Str
  | none => []
  | some v => '_' :: v

/-- Constituents of a grammar-conforming token name
`PREFIX-{component}[__{element}]*[_{variant}]--{cssProperty}[_{state}]`. -/
structure GParts where
  dsa : Bool
  elems : List Str
  variant : Option Str
  prop : Str
  state : Option Str

/-- Build the token name denoted by grammar constituents. -/
def buildName (comp : Str) (g : GParts) : Str :=
  (if g.dsa then "--dsa-".toList else "--l-".toList) ++ comp ++
    elemsPart g.elems ++ optUnderscore g.variant ++
    '-' :: '-' :: (g.prop ++ optUnderscore g.state)

/-- Well-formedness of grammar constituents: nonempty word-character element
runs, letter-initial variant, nonempty property, recognised state. -/
def WfParts (g : GParts) : Prop :=
  (∀ r ∈ g.elems, r ≠ [] ∧ ∀ c ∈ r, wc c = true) ∧
  (∀ v, g.variant = some v →
    ∃ c cs, v = c :: cs ∧ c.isAlpha = true ∧ ∀ x ∈ cs, wc x = true) ∧
  g.prop ≠ [] ∧ (∀ c ∈ g.prop, wc c = true ∨ c = '_') ∧
  (∀ s, g.state = some s → s ∈ STATES)

/-- Inverse of `replaceDD`: nesting dots back to `__`. -/
def dotsToDD : Str → Str
  | [] => []
  | c :: r => if c = '.' then '_' :: '_' :: dotsToDD r else c :: dotsToDD r

/-- Reconstruct a name from decomposed fields, back into the grammar shape. -/
def reconName (comp : Str) (f : ParsedName) : Str :=
  "--dsa-".toList ++ comp ++
    (match f.element with
     | none => []
     | some e => '_' :: '_' :: dotsToDD e) ++
    optUnderscore f.variant ++ '-' :: '-' :: (f.cssProperty ++ optUnderscore f.state)

theorem lastDD_cons_cons (a b : Char) (rest : Str) :
    lastDD (a :: b :: rest) =
      match lastDD (b :: rest) with
      | some (pre, post) => some (a :: pre, post)
      | none => if a = '-' && b = '-' then some ([], rest) else none := rfl

theorem lastDD_none_cons_cons {a b : Char} {rest : Str}
    (h : lastDD (a :: b :: rest) = none) :
    lastDD (b :: rest) = none ∧ (a = '-' && b = '-') = false := by
  rw [lastDD_cons_cons] at h
  cases h' : lastDD (b :: rest) with
  | some pr =>
    rcases pr with ⟨pre, post⟩
    rw [h'] at h
    simp at h
  | none =>
    rw [h'] at h
    refine ⟨rfl, ?_⟩
    by_cases hc : (a = '-' && b = '-') = true
    · rw [if_pos hc] at h
      simp at h
    · simpa using hc

theorem lastDD_some : ∀ {l b a : Str}, lastDD l = some (b, a) →
    l = b ++ '-' :: '-' :: a ∧ lastDD ('-' :: a) = none := by
  intro l
  induction l with
  | nil => intro b a h; simp [lastDD] at h
  | cons x tail ih =>
    intro b a h
    cases tail with
    | nil => simp [lastDD] at h
    | cons y rest =>
      rw [lastDD_cons_cons] at h
      cases h' : lastDD (y :: rest) with
      | some pr =>
        rcases pr with ⟨pre, post⟩
        rw [h'] at h
        simp only [Option.some.injEq, Prod.mk.injEq] at h
        obtain ⟨hb, ha⟩ := h
        obtain ⟨e1, e2⟩ := ih h'
        subst hb
        subst ha
        exact ⟨by rw [e1]; rfl, e2⟩
      | none =>
        rw [h'] at h
        by_cases hc : (x = '-' && y = '-') = true
        · rw [if_pos hc] at h
          simp only [Option.some.injEq, Prod.mk.injEq] at h
          obtain ⟨hb, ha⟩ := h
          rw [Bool.and_eq_true, decide_eq_true_iff, decide_eq_true_iff] at hc
          obtain ⟨hx, hy⟩ := hc
          subst hx hy
          subst hb
          subst ha
          refine ⟨by simp, ?_⟩
          exact h'
        · rw [if_neg hc] at h
          simp at h

theorem lastDD_append {a : Str} (h : lastDD ('-' :: a) = none) :
    ∀ b : Str, lastDD (b ++ '-' :: '-' :: a) = some (b, a) := by
  intro b
  induction b with
  | nil =>
    simp only [List.nil_append]
    rw [lastDD_cons_cons, h]
    simp
  | cons x b' ih =>
    cases hsh : b' ++ '-' :: '-' :: a with
    | nil => simp at hsh
    | cons y rest =>
      rw [List.cons_append, hsh, lastDD_cons_cons, ← hsh, ih]

theorem lastDD_append_ne_none (w : Str) :
    ∀ u : Str, lastDD (u ++ '-' :: '-' :: w) ≠ none := by
  intro u
  induction u with
  | nil =>
    simp only [List.nil_append]
    rw [lastDD_cons_cons]
    cases h' : lastDD ('-' :: w) with
    | some pr => rcases pr with ⟨pre, post⟩; simp
    | none => simp
  | cons x u' ih =>
    cases hsh : u' ++ '-' :: '-' :: w with
    | nil => simp at hsh
    | cons y rest =>
      rw [List.cons_append, hsh, lastDD_cons_cons, ← hsh]
      cases h' : lastDD (u' ++ '-' :: '-' :: w) with
      | some pr => rcases pr with ⟨pre, post⟩; simp
      | none => exact absurd h' ih

theorem lastDD_none_of_append : ∀ {u z : Str}, lastDD (u ++ z) = none →
    lastDD u = none := by
  intro u
  induction u with
  | nil => intro z _; rfl
  | cons x tail ih =>
    intro z h
    cases tail with
    | nil => rfl
    | cons y rest =>
      rw [List.cons_append, List.cons_append] at h
      obtain ⟨h1, h2⟩ := lastDD_none_cons_cons h
      rw [← List.cons_append] at h1
      have h3 := ih h1
      rw [lastDD_cons_cons, h3, h2]
      rfl

theorem lastDD_none_noDash : ∀ {w : Str}, (∀ c ∈ w, c ≠ '-') →
    lastDD w = none := by
  intro w
  induction w with
  | nil => intro _; rfl
  | cons a tail ih =>
    intro h
    cases tail with
    | nil => rfl
    | cons b rest =>
      have h1 : lastDD (b :: rest) = none :=
        ih (fun c hc => h c (List.mem_cons_of_mem _ hc))
      rw [lastDD_cons_cons, h1]
      have hb : b ≠ '-' := h b (by simp)
      have : (a = '-' && b = '-') = false := by
        simp [hb]
      rw [this]
      rfl

theorem lastDD_none_append_noDash : ∀ {u w : Str}, lastDD u = none →
    (∀ c ∈ w, c ≠ '-') → lastDD (u ++ w) = none := by
  intro u
  induction u with
  | nil => intro w _ hw; exact lastDD_none_noDash hw
  | cons x tail ih =>
    intro w h hw
    cases tail with
    | nil =>
      cases w with
      | nil => rfl
      | cons b rest =>
        have h1 : lastDD (b :: rest) = none := lastDD_none_noDash hw
        rw [List.cons_append, List.nil_append, lastDD_cons_cons, h1]
        have hb : b ≠ '-' := hw b (by simp)
        have : (x = '-' && b = '-') = false := by simp [hb]
        rw [this]
        rfl
    | cons y rest =>
      obtain ⟨h1, h2⟩ := lastDD_none_cons_cons h
      have h3 := ih h1 hw
      rw [List.cons_append] at h3
      show lastDD (x :: y :: (rest ++ w)) = none
      rw [lastDD_cons_cons, h3, h2]
      rfl

theorem wc_ne_underscore {c : Char} (h : wc c = true) : c ≠ '_' := by
  intro he
  subst he
  exact absurd h (by decide)

theorem alpha_ne_underscore {c : Char} (h : c.isAlpha = true) : c ≠ '_' := by
  intro he
  subst he
  exact absurd h (by decide)

theorem states_no_underscore : ∀ s ∈ STATES, '_' ∉ s := by decide

theorem states_no_dash : ∀ s ∈ STATES, ∀ c ∈ s, c ≠ '-' := by decide

theorem takeWhile_all {p : Char → Bool} {l : Str} (h : ∀ c ∈ l, p c = true) :
    l.takeWhile p = l := by
  induction l with
  | nil => rfl
  | cons c cs ih =>
    have hc := h c (List.mem_cons_self c cs)
    simp [List.takeWhile_cons, hc,
      ih (fun x hx => h x (List.mem_cons_of_mem c hx))]

theorem underscore_suffix_underscore {s t x : Str} (hs : '_' ∉ s) (ht : '_' ∉ t)
    (h : ('_' :: t) <:+ (x ++ '_' :: s)) : t = s := by
  have hss : ('_' :: s) <:+ (x ++ '_' :: s) := List.suffix_append x ('_' :: s)
  rcases List.suffix_or_suffix_of_suffix h hss with h1 | h1
  · obtain ⟨u, hu⟩ := h1
    cases u with
    | nil => simpa using hu
    | cons c u' =>
      rw [List.cons_append] at hu
      have hc : c = '_' := by
        have := congrArg List.head? hu
        simpa using this
      have hmem : '_' ∈ s := by
        have htail : u' ++ '_' :: t = s := by
          have := congrArg List.tail hu
          simpa using this
        rw [← htail]
        simp
      exact absurd hmem hs
  · obtain ⟨u, hu⟩ := h1
    cases u with
    | nil => simpa using hu.symm
    | cons c u' =>
      rw [List.cons_append] at hu
      have hmem : '_' ∈ t := by
        have htail : u' ++ '_' :: s = t := by
          have := congrArg List.tail hu
          simpa using this
        rw [← htail]
        simp
      exact absurd hmem ht

theorem find?_eq_of_unique {p : Str → Bool} {L : List Str} {x : Str} (hx : x ∈ L)
    (hpx : p x = true) (huniq : ∀ y ∈ L, p y = true → y = x) :
    L.find? p = some x := by
  induction L with
  | nil => simp at hx
  | cons h t ih =>
    by_cases hph : p h = true
    · have he : h = x := huniq h (by simp) hph
      subst he
      simp [List.find?_cons_of_pos _ hph]
    · have hph' : ¬ p h := fun hc => hph hc
      rw [List.find?_cons_of_neg _ hph']
      have hxt : x ∈ t := by
        rcases List.mem_cons.mp hx with h1 | h1
        · subst h1; exact absurd hpx hph
        · exact h1
      exact ih hxt (fun y hy hpy => huniq y (List.mem_cons_of_mem _ hy) hpy)

theorem stripState_append_state {s : Str} (hs : s ∈ STATES) (x : Str) :
    stripState (x ++ '_' :: s) = (x, some s) := by
  have hfind : STATES.find? (fun t => endsWithL ('_' :: t) (x ++ '_' :: s)) = some s := by
    apply find?_eq_of_unique hs
    · rw [endsWithL_iff]
      exact List.suffix_append x ('_' :: s)
    · intro t ht hpt
      rw [endsWithL_iff] at hpt
      exact underscore_suffix_underscore (states_no_underscore s hs)
        (states_no_underscore t ht) hpt
  unfold stripState
  rw [hfind]
  dsimp only
  have hlen : (x ++ '_' :: s).length - (s.length + 1) = x.length := by
    simp
  rw [hlen, List.take_left]

theorem sepStep_cons3 (a b c : Char) (r : Str) :
    sepStep (a :: b :: c :: r) =
      if a = '_' && b = '_' && wc c then some (c, r) else none := rfl

theorem sepStep_some : ∀ {t : Str} {c : Char} {r : Str}, sepStep t = some (c, r) →
    t = '_' :: '_' :: c :: r ∧ wc c = true := by
  intro t c r h
  match t with
  | [] => simp [sepStep] at h
  | [x] => simp [sepStep] at h
  | [x, y] => simp [sepStep] at h
  | x :: y :: z :: r' =>
    rw [sepStep_cons3] at h
    by_cases hg : (x = '_' && y = '_' && wc z) = true
    · rw [if_pos hg] at h
      simp only [Option.some.injEq, Prod.mk.injEq] at h
      obtain ⟨hc, hr⟩ := h
      subst hc
      subst hr
      rw [Bool.and_eq_true, Bool.and_eq_true, decide_eq_true_iff, decide_eq_true_iff] at hg
      obtain ⟨⟨hx, hy⟩, hz⟩ := hg
      subst hx
      subst hy
      exact ⟨rfl, hz⟩
    · rw [if_neg hg] at h
      simp at h

theorem sepStep_sep {c : Char} (r : Str) (h : wc c = true) :
    sepStep ('_' :: '_' :: c :: r) = some (c, r) := by
  rw [sepStep_cons3]
  simp [h]

theorem sepStep_not_underscore {a : Char} (t : Str) (ha : a ≠ '_') :
    sepStep (a :: t) = none := by
  match t with
  | [] => rfl
  | [y] => rfl
  | y :: z :: r => rw [sepStep_cons3]; simp [ha]

theorem sepStep_snd_not_underscore {b : Char} (t : Str) (hb : b ≠ '_') :
    sepStep ('_' :: b :: t) = none := by
  match t with
  | [] => rfl
  | z :: r => rw [sepStep_cons3]; simp [hb]

theorem mem_takeWhile {p : Char → Bool} : ∀ {l : Str} {x : Char},
    x ∈ l.takeWhile p → p x = true := by
  intro l
  induction l with
  | nil => intro x h; simp at h
  | cons a t ih =>
    intro x h
    by_cases hp : p a = true
    · rw [List.takeWhile_cons_of_pos hp] at h
      rcases List.mem_cons.mp h with h1 | h1
      · subst h1; exact hp
      · exact ih h1
    · rw [List.takeWhile_cons_of_neg hp] at h
      simp at h

/-- `t` does not begin with a word character. -/
def NotWcHead (t : Str) : Prop := t = [] ∨ ∃ c cs, t = c :: cs ∧ wc c = false

theorem run_split {r t : Str} (hr : ∀ c ∈ r, wc c = true) (ht : NotWcHead t) :
    (r ++ t).takeWhile wc = r ∧ (r ++ t).dropWhile wc = t := by
  constructor
  · rw [List.takeWhile_append_of_pos hr]
    rcases ht with h | ⟨c, cs, hct, hc⟩
    · subst h; simp
    · subst hct
      rw [List.takeWhile_cons_of_neg (by simp [hc]), List.append_nil]
  · rw [List.dropWhile_append_of_pos hr]
    rcases ht with h | ⟨c, cs, hct, hc⟩
    · subst h; simp
    · subst hct
      rw [List.dropWhile_cons_of_neg (by simp [hc])]

/-- Well-formed element runs: a nonempty list of nonempty word-character runs. -/
def WfRuns (rs : List Str) : Prop :=
  rs ≠ [] ∧ ∀ r ∈ rs, r ≠ [] ∧ ∀ c ∈ r, wc c = true

theorem interDD_cons2 (r1 r2 : Str) (rs : List Str) :
    interDD (r1 :: r2 :: rs) = r1 ++ '_' :: '_' :: interDD (r2 :: rs) := rfl

theorem interDD_head : ∀ {rs : List Str}, WfRuns rs →
    ∃ c cs, interDD rs = c :: cs ∧ wc c = true := by
  intro rs hw
  match rs with
  | [] => exact absurd rfl hw.1
  | [r] =>
    obtain ⟨hne, hall⟩ := hw.2 r (by simp)
    match r with
    | [] => exact absurd rfl hne
    | c :: cs => exact ⟨c, cs, rfl, hall c (by simp)⟩
  | r1 :: r2 :: rs' =>
    obtain ⟨hne, hall⟩ := hw.2 r1 (by simp)
    match r1 with
    | [] => exact absurd rfl hne
    | c :: cs =>
      exact ⟨c, cs ++ '_' :: '_' :: interDD (r2 :: rs'), by rw [interDD_cons2]; rfl,
        hall c (by simp)⟩

theorem munchF_succ (fuel : Nat) (l : Str) :
    munchF (fuel + 1) l =
      match sepStep (l.dropWhile wc) with
      | some (c, r) => l.takeWhile wc ++ '_' :: '_' :: munchF fuel (c :: r)
      | none => l.takeWhile wc := rfl

theorem munchF_shape : ∀ (fuel : Nat) (c : Char) (r : Str), wc c = true →
    ∃ rs, WfRuns rs ∧ munchF fuel (c :: r) = interDD rs := by
  intro fuel
  induction fuel with
  | zero =>
    intro c r hc
    refine ⟨[(c :: r).takeWhile wc], ⟨by simp, ?_⟩, ?_⟩
    · intro x hx
      rw [List.mem_singleton] at hx
      subst hx
      constructor
      · rw [List.takeWhile_cons_of_pos hc]; simp
      · intro y hy; exact mem_takeWhile hy
    · rfl
  | succ fuel ih =>
    intro c r hc
    rw [munchF_succ]
    cases hs : sepStep ((c :: r).dropWhile wc) with
    | none =>
      refine ⟨[(c :: r).takeWhile wc], ⟨by simp, ?_⟩, rfl⟩
      intro x hx
      rw [List.mem_singleton] at hx
      subst hx
      exact ⟨by rw [List.takeWhile_cons_of_pos hc]; simp,
        fun y hy => mem_takeWhile hy⟩
    | some pr =>
      rcases pr with ⟨c', r'⟩
      obtain ⟨rs', hw', hm'⟩ := ih c' r' (sepStep_some hs).2
      have hrs' : ∃ r2 rs'', rs' = r2 :: rs'' := by
        match rs', hw'.1 with
        | r2 :: rs'', _ => exact ⟨r2, rs'', rfl⟩
      obtain ⟨r2, rs'', hrs''⟩ := hrs'
      refine ⟨(c :: r).takeWhile wc :: rs', ⟨by simp, ?_⟩, ?_⟩
      · intro x hx
        rcases List.mem_cons.mp hx with h1 | h1
        · subst h1
          exact ⟨by rw [List.takeWhile_cons_of_pos hc]; simp,
            fun y hy => mem_takeWhile hy⟩
        · exact hw'.2 x h1
      · rw [hrs'', interDD_cons2, ← hrs'', ← hm']

/-- Admissible continuations after the full element group: end of text, or a
single-underscore variant introduction. -/
def SepTail (t : Str) : Prop := t = [] ∨ ∃ c cs, t = '_' :: c :: cs ∧ c ≠ '_'

theorem sepTail_sepStep {t : Str} (ht : SepTail t) : sepStep t = none := by
  rcases ht with h | ⟨c, cs, hct, hc⟩
  · subst h; rfl
  · subst hct; exact sepStep_snd_not_underscore _ hc

theorem sepTail_notWcHead {t : Str} (ht : SepTail t) : NotWcHead t := by
  rcases ht with h | ⟨c, cs, hct, hc⟩
  · exact Or.inl h
  · exact Or.inr ⟨'_', c :: cs, by rw [hct], by decide⟩

theorem munchF_recover : ∀ (rs : List Str) (fuel : Nat) (t : Str), WfRuns rs →
    SepTail t → rs.length ≤ fuel + 1 →
    munchF fuel (interDD rs ++ t) = interDD rs := by
  intro rs
  induction rs with
  | nil => intro fuel t hw _ _; exact absurd rfl hw.1
  | cons r1 rs' ih =>
    intro fuel t hw ht hlen
    obtain ⟨hne1, hall1⟩ := hw.2 r1 (by simp)
    cases rs' with
    | nil =>
      have hsplit := run_split hall1 (sepTail_notWcHead ht)
      have hsep : sepStep ((interDD [r1] ++ t).dropWhile wc) = none := by
        show sepStep ((r1 ++ t).dropWhile wc) = none
        rw [hsplit.2]
        exact sepTail_sepStep ht
      cases fuel with
      | zero => exact hsplit.1
      | succ fuel' =>
        rw [munchF_succ, hsep]
        exact hsplit.1
    | cons r2 rs'' =>
      have hw' : WfRuns (r2 :: rs'') := by
        refine ⟨by simp, fun x hx => hw.2 x (List.mem_cons_of_mem _ hx)⟩
      obtain ⟨c', cs', hh', hc'⟩ := interDD_head hw'
      have hfuel : ∃ fuel', fuel = fuel' + 1 := by
        cases fuel with
        | zero => simp at hlen
        | succ f => exact ⟨f, rfl⟩
      obtain ⟨fuel', hf⟩ := hfuel
      subst hf
      have hshape : interDD (r1 :: r2 :: rs'') ++ t =
          r1 ++ ('_' :: '_' :: (interDD (r2 :: rs'') ++ t)) := by
        rw [interDD_cons2]
        simp
      rw [hshape]
      have hsplit := run_split hall1
        (Or.inr ⟨'_', '_' :: (interDD (r2 :: rs'') ++ t), rfl, by decide⟩)
      rw [munchF_succ, hsplit.2, hsplit.1]
      have hsep : sepStep ('_' :: '_' :: (interDD (r2 :: rs'') ++ t)) =
          some (c', cs' ++ t) := by
        rw [hh', List.cons_append]
        exact sepStep_sep _ hc'
      rw [hsep]
      dsimp only
      have harg : c' :: (cs' ++ t) = interDD (r2 :: rs'') ++ t := by
        rw [hh']; rfl
      rw [harg, ih fuel' t hw' ht (by simpa using Nat.le_of_succ_le_succ hlen)]
      rw [interDD_cons2]

theorem wc_ne_dot {c : Char} (h : wc c = true) : c ≠ '.' := by
  intro he
  subst he
  exact absurd h (by decide)

theorem interDD_length_ge : ∀ {rs : List Str}, WfRuns rs →
    rs.length ≤ (interDD rs).length := by
  intro rs
  induction rs with
  | nil => intro _; simp
  | cons r1 rs' ih =>
    intro hw
    have hne1 : r1 ≠ [] := (hw.2 r1 (by simp)).1
    have hlen1 : 1 ≤ r1.length := List.length_pos.mpr hne1
    cases rs' with
    | nil => simpa [interDD] using hlen1
    | cons r2 rs'' =>
      have hw' : WfRuns (r2 :: rs'') :=
        ⟨by simp, fun x hx => hw.2 x (List.mem_cons_of_mem _ hx)⟩
      have h1 := ih hw'
      rw [interDD_cons2]
      simp only [List.length_append, List.length_cons]
      simp at h1 ⊢
      omega

theorem munchRuns_recover {rs : List Str} {t : Str} (hw : WfRuns rs) (ht : SepTail t) :
    munchRuns (interDD rs ++ t) = interDD rs := by
  apply munchF_recover rs _ t hw ht
  have h1 := interDD_length_ge hw
  have h2 : (interDD rs).length ≤ (interDD rs ++ t).length := by simp
  omega

theorem elemSearch_cons (a : Char) (rest : Str) :
    elemSearch (a :: rest) =
      match sepStep (a :: rest) with
      | some (c, r) => some (munchRuns (c :: r))
      | none => elemSearch rest := rfl

theorem elemSearch_no_underscore : ∀ {l : Str}, (∀ x ∈ l, x ≠ '_') →
    elemSearch l = none := by
  intro l
  induction l with
  | nil => intro _; rfl
  | cons a rest ih =>
    intro h
    rw [elemSearch_cons, sepStep_not_underscore rest (h a (by simp))]
    exact ih (fun x hx => h x (List.mem_cons_of_mem _ hx))

theorem elemSearch_shape : ∀ {l g : Str}, elemSearch l = some g →
    ∃ rs, WfRuns rs ∧ g = interDD rs := by
  intro l
  induction l with
  | nil => intro g h; simp [elemSearch] at h
  | cons a rest ih =>
    intro g h
    rw [elemSearch_cons] at h
    cases hs : sepStep (a :: rest) with
    | some pr =>
      rcases pr with ⟨c, r⟩
      rw [hs] at h
      dsimp only at h
      obtain ⟨rs, hw, hm⟩ := munchF_shape (c :: r).length c r (sepStep_some hs).2
      refine ⟨rs, hw, ?_⟩
      have hg : munchRuns (c :: r) = g := Option.some.inj h
      rw [← hg, munchRuns, hm]
    | none =>
      rw [hs] at h
      exact ih h

theorem elemSearch_recover {rs : List Str} {t : Str} (hw : WfRuns rs) (ht : SepTail t) :
    elemSearch ('_' :: '_' :: (interDD rs ++ t)) = some (interDD rs) := by
  obtain ⟨c, cs, hh, hc⟩ := interDD_head hw
  have hshape : '_' :: '_' :: (interDD rs ++ t) = '_' :: '_' :: c :: (cs ++ t) := by
    rw [hh]; rfl
  rw [hshape, elemSearch_cons, sepStep_sep _ hc]
  dsimp only
  have harg : c :: (cs ++ t) = interDD rs ++ t := by rw [hh]; rfl
  rw [harg, munchRuns_recover hw ht]

theorem varStep_cons3 (a b c : Char) (r : Str) :
    varStep (a :: b :: c :: r) =
      if a ≠ '_' && b = '_' && c.isAlpha then some (c, r) else none := rfl

theorem varStep_some : ∀ {t : Str} {c : Char} {r : Str}, varStep t = some (c, r) →
    c.isAlpha = true := by
  intro t c r h
  match t with
  | [] => simp [varStep] at h
  | [x] => simp [varStep] at h
  | [x, y] => simp [varStep] at h
  | x :: y :: z :: r' =>
    rw [varStep_cons3] at h
    by_cases hg : (x ≠ '_' && y = '_' && z.isAlpha) = true
    · rw [if_pos hg] at h
      simp only [Option.some.injEq, Prod.mk.injEq] at h
      obtain ⟨hc, _⟩ := h
      subst hc
      rw [Bool.and_eq_true, Bool.and_eq_true] at hg
      exact hg.2
    · rw [if_neg hg] at h
      simp at h

theorem varStep_match {a c : Char} (r : Str) (ha : a ≠ '_') (hc : c.isAlpha = true) :
    varStep (a :: '_' :: c :: r) = some (c, r) := by
  rw [varStep_cons3]
  simp [ha, hc]

theorem varStep_underscore_head : ∀ (t : Str), varStep ('_' :: t) = none := by
  intro t
  match t with
  | [] => rfl
  | [y] => rfl
  | y :: z :: r => rw [varStep_cons3]; simp

theorem varStep_snd_not_underscore {b : Char} (a : Char) (t : Str) (hb : b ≠ '_') :
    varStep (a :: b :: t) = none := by
  match t with
  | [] => rfl
  | z :: r => rw [varStep_cons3]; simp [hb]

theorem varStep_third_not_alpha {c : Char} (a : Char) (t : Str) (hc : c.isAlpha = false) :
    varStep (a :: '_' :: c :: t) = none := by
  rw [varStep_cons3]
  simp [hc]

theorem varGen_cons (a : Char) (rest : Str) :
    varGen (a :: rest) =
      match varStep (a :: rest) with
      | some (c, r) => some (varGroup c r)
      | none => varGen rest := rfl

theorem varGen_underscore (l : Str) : varGen ('_' :: l) = varGen l := by
  rw [varGen_cons, varStep_underscore_head]

theorem varGen_no_underscore : ∀ {l : Str}, (∀ x ∈ l, x ≠ '_') → varGen l = none := by
  intro l
  induction l with
  | nil => intro _; rfl
  | cons a rest ih =>
    intro h
    have hs : varStep (a :: rest) = none := by
      cases rest with
      | nil => rfl
      | cons b t => exact varStep_snd_not_underscore a t (h b (by simp))
    rw [varGen_cons, hs]
    exact ih (fun x hx => h x (List.mem_cons_of_mem _ hx))

theorem varGen_run_match : ∀ {r : Str}, r ≠ [] → (∀ x ∈ r, wc x = true) →
    ∀ {c : Char} (cs : Str), c.isAlpha = true →
    varGen (r ++ '_' :: c :: cs) = some (varGroup c cs) := by
  intro r
  induction r with
  | nil => intro h; exact absurd rfl h
  | cons a r' ih =>
    intro _ hall c cs hc
    cases r' with
    | nil =>
      show varGen (a :: '_' :: c :: cs) = _
      rw [varGen_cons, varStep_match cs (wc_ne_underscore (hall a (by simp))) hc]
    | cons a2 r'' =>
      show varGen (a :: (a2 :: (r'' ++ '_' :: c :: cs))) = _
      rw [varGen_cons,
        varStep_snd_not_underscore a _ (wc_ne_underscore (hall a2 (by simp)))]
      exact ih (by simp) (fun x hx => hall x (List.mem_cons_of_mem _ hx)) cs hc

theorem varGen_run_sep : ∀ {r : Str}, r ≠ [] → (∀ x ∈ r, wc x = true) →
    ∀ (w : Str), varGen (r ++ '_' :: '_' :: w) = varGen ('_' :: '_' :: w) := by
  intro r
  induction r with
  | nil => intro h; exact absurd rfl h
  | cons a r' ih =>
    intro _ hall w
    cases r' with
    | nil =>
      show varGen (a :: '_' :: '_' :: w) = _
      rw [varGen_cons, varStep_third_not_alpha a w (by decide)]
    | cons a2 r'' =>
      show varGen (a :: (a2 :: (r'' ++ '_' :: '_' :: w))) = _
      rw [varGen_cons,
        varStep_snd_not_underscore a _ (wc_ne_underscore (hall a2 (by simp)))]
      exact ih (by simp) (fun x hx => hall x (List.mem_cons_of_mem _ hx)) w

theorem varGen_interDD_var : ∀ {rs : List Str}, WfRuns rs → ∀ {c : Char} (cs : Str),
    c.isAlpha = true → varGen (interDD rs ++ '_' :: c :: cs) = some (varGroup c cs) := by
  intro rs
  induction rs with
  | nil => intro hw; exact absurd rfl hw.1
  | cons r1 rs' ih =>
    intro hw c cs hc
    obtain ⟨hne, hall⟩ := hw.2 r1 (by simp)
    cases rs' with
    | nil => exact varGen_run_match hne hall cs hc
    | cons r2 rs'' =>
      have hw' : WfRuns (r2 :: rs'') :=
        ⟨by simp, fun x hx => hw.2 x (List.mem_cons_of_mem _ hx)⟩
      have hshape : interDD (r1 :: r2 :: rs'') ++ '_' :: c :: cs =
          r1 ++ '_' :: '_' :: (interDD (r2 :: rs'') ++ '_' :: c :: cs) := by
        rw [interDD_cons2]; simp
      rw [hshape, varGen_run_sep hne hall, varGen_underscore, varGen_underscore]
      exact ih hw' cs hc

theorem varGen_interDD_none : ∀ {rs : List Str}, WfRuns rs →
    varGen (interDD rs) = none := by
  intro rs
  induction rs with
  | nil => intro hw; exact absurd rfl hw.1
  | cons r1 rs' ih =>
    intro hw
    obtain ⟨hne, hall⟩ := hw.2 r1 (by simp)
    cases rs' with
    | nil =>
      exact varGen_no_underscore (fun x hx => wc_ne_underscore (hall x hx))
    | cons r2 rs'' =>
      have hw' : WfRuns (r2 :: rs'') :=
        ⟨by simp, fun x hx => hw.2 x (List.mem_cons_of_mem _ hx)⟩
      rw [interDD_cons2, varGen_run_sep hne hall, varGen_underscore, varGen_underscore]
      exact ih hw'

theorem varGroup_self {c : Char} {cs : Str} (h : ∀ x ∈ cs, wc x = true) :
    varGroup c cs = c :: cs := by
  unfold varGroup
  rw [takeWhile_all h]

theorem varGen_shape : ∀ {l v : Str}, varGen l = some v →
    ∃ c cs, v = varGroup c cs ∧ c.isAlpha = true := by
  intro l
  induction l with
  | nil => intro v h; simp [varGen] at h
  | cons a rest ih =>
    intro v h
    rw [varGen_cons] at h
    cases hs : varStep (a :: rest) with
    | some pr =>
      rcases pr with ⟨c, r⟩
      rw [hs] at h
      dsimp only at h
      exact ⟨c, r, (Option.some.inj h).symm, varStep_some hs⟩
    | none =>
      rw [hs] at h
      exact ih h

theorem varSearch_cons_underscore (c : Char) (rest : Str) :
    varSearch ('_' :: c :: rest) =
      if c.isAlpha then some (varGroup c rest) else varGen ('_' :: c :: rest) := rfl

theorem varSearch_nil : varSearch [] = none := rfl

theorem varSearch_single (a : Char) : varSearch [a] = varGen [a] := by
  unfold varSearch
  split
  · next heq => exact absurd heq (by simp)
  · rfl

theorem varSearch_not_underscore {a : Char} (b : Char) (rest : Str) (ha : a ≠ '_') :
    varSearch (a :: b :: rest) = varGen (a :: b :: rest) := by
  unfold varSearch
  split
  · next heq =>
    exfalso
    apply ha
    have h2 := congrArg List.head? heq
    simp at h2
    exact h2
  · rfl

theorem varSearch_shape {l v : Str} (h : varSearch l = some v) :
    ∃ c cs, v = varGroup c cs ∧ c.isAlpha = true := by
  cases l with
  | nil => rw [varSearch_nil] at h; simp at h
  | cons a rest =>
    cases rest with
    | nil =>
      rw [varSearch_single] at h
      exact varGen_shape h
    | cons b rest' =>
      by_cases ha : a = '_'
      · subst ha
        rw [varSearch_cons_underscore] at h
        by_cases hb : b.isAlpha = true
        · rw [if_pos hb] at h
          exact ⟨b, rest', (Option.some.inj h).symm, hb⟩
        · rw [if_neg hb] at h
          exact varGen_shape h
      · rw [varSearch_not_underscore b rest' ha] at h
        exact varGen_shape h

theorem replaceDD_cons2 (a b : Char) (rest : Str) :
    replaceDD (a :: b :: rest) =
      if a = '_' && b = '_' then '.' :: replaceDD rest
      else a :: replaceDD (b :: rest) := rfl

theorem replaceDD_run : ∀ {r : Str}, (∀ c ∈ r, c ≠ '_') → ∀ (t : Str),
    replaceDD (r ++ t) = r ++ replaceDD t := by
  intro r
  induction r with
  | nil => intro _ t; rfl
  | cons a r' ih =>
    intro h t
    have ha : a ≠ '_' := h a (by simp)
    cases hx : r' ++ t with
    | nil =>
      obtain ⟨h1, h2⟩ := List.append_eq_nil.mp hx
      subst h1
      subst h2
      rfl
    | cons y rest =>
      show replaceDD (a :: (r' ++ t)) = a :: (r' ++ replaceDD t)
      rw [hx, replaceDD_cons2]
      have hg : (a = '_' && y = '_') = false := by simp [ha]
      simp only [hg, Bool.false_eq_true, if_false]
      rw [← hx, ih (fun c hc => h c (List.mem_cons_of_mem _ hc)) t]

theorem replaceDD_sep (rest : Str) :
    replaceDD ('_' :: '_' :: rest) = '.' :: replaceDD rest := by
  rw [replaceDD_cons2]
  simp

theorem interDots_cons2 (r1 r2 : Str) (rs : List Str) :
    interDots (r1 :: r2 :: rs) = r1 ++ '.' :: interDots (r2 :: rs) := rfl

theorem replaceDD_interDD : ∀ {rs : List Str}, WfRuns rs →
    replaceDD (interDD rs) = interDots rs := by
  intro rs
  induction rs with
  | nil => intro hw; exact absurd rfl hw.1
  | cons r1 rs' ih =>
    intro hw
    obtain ⟨hne, hall⟩ := hw.2 r1 (by simp)
    have hnun : ∀ c ∈ r1, c ≠ '_' := fun c hc => wc_ne_underscore (hall c hc)
    cases rs' with
    | nil =>
      show replaceDD r1 = r1
      have h2 := replaceDD_run hnun []
      rw [List.append_nil] at h2
      rw [h2]
      simp [replaceDD]
    | cons r2 rs'' =>
      have hw' : WfRuns (r2 :: rs'') :=
        ⟨by simp, fun x hx => hw.2 x (List.mem_cons_of_mem _ hx)⟩
      rw [interDD_cons2, replaceDD_run hnun, replaceDD_sep, ih hw', interDots_cons2]

theorem dotsToDD_cons (c : Char) (r : Str) :
    dotsToDD (c :: r) =
      if c = '.' then '_' :: '_' :: dotsToDD r else c :: dotsToDD r := rfl

theorem dotsToDD_run : ∀ {r : Str}, (∀ c ∈ r, c ≠ '.') → ∀ (t : Str),
    dotsToDD (r ++ t) = r ++ dotsToDD t := by
  intro r
  induction r with
  | nil => intro _ t; rfl
  | cons a r' ih =>
    intro h t
    have ha : a ≠ '.' := h a (by simp)
    show dotsToDD (a :: (r' ++ t)) = a :: (r' ++ dotsToDD t)
    rw [dotsToDD_cons, if_neg ha, ih (fun c hc => h c (List.mem_cons_of_mem _ hc)) t]

theorem dotsToDD_interDots : ∀ {rs : List Str}, WfRuns rs →
    dotsToDD (interDots rs) = interDD rs := by
  intro rs
  induction rs with
  | nil => intro hw; exact absurd rfl hw.1
  | cons r1 rs' ih =>
    intro hw
    obtain ⟨hne, hall⟩ := hw.2 r1 (by simp)
    have hnd : ∀ c ∈ r1, c ≠ '.' := fun c hc => wc_ne_dot (hall c hc)
    cases rs' with
    | nil =>
      show dotsToDD r1 = r1
      have h2 := dotsToDD_run hnd []
      rw [List.append_nil] at h2
      rw [h2]
      simp [dotsToDD]
    | cons r2 rs'' =>
      have hw' : WfRuns (r2 :: rs'') :=
        ⟨by simp, fun x hx => hw.2 x (List.mem_cons_of_mem _ hx)⟩
      rw [interDots_cons2, dotsToDD_run hnd, dotsToDD_cons, if_pos rfl, ih hw',
        interDD_cons2]

theorem startsWithL_append (p t : Str) : startsWithL p (p ++ t) = true := by
  rw [startsWithL_iff]
  exact List.prefix_append p t

theorem stripLead_dsa (comp tail : Str) :
    stripLead (("--dsa-".toList ++ comp) ++ tail) comp = tail := by
  unfold stripLead
  dsimp only
  rw [if_pos (startsWithL_append ("--dsa-".toList ++ comp) tail), List.drop_left]

theorem stripLead_l (comp tail : Str) :
    stripLead (("--l-".toList ++ comp) ++ tail) comp = tail := by
  unfold stripLead
  dsimp only
  have h0 : startsWithL ("--dsa-".toList ++ comp) (("--l-".toList ++ comp) ++ tail) =
      false := rfl
  rw [if_neg (by rw [h0]; exact Bool.false_ne_true),
    if_pos (startsWithL_append ("--l-".toList ++ comp) tail), List.drop_left]

theorem parseCTN_eq (name comp : Str) :
    parseComponentTokenName name comp =
      ⟨(if (beforePropOf name comp).isEmpty then (none, none)
        else ((elemSearch (beforePropOf name comp)).map replaceDD,
              varSearch (beforePropOf name comp))).1,
       (if (beforePropOf name comp).isEmpty then (none, none)
        else ((elemSearch (beforePropOf name comp)).map replaceDD,
              varSearch (beforePropOf name comp))).2,
       (if (stripState (propertyPartOf name comp)).1.isEmpty then "unknown".toList
        else (stripState (propertyPartOf name comp)).1),
       (stripState (propertyPartOf name comp)).2⟩ := rfl

theorem varSearch_sep (X : Str) : varSearch ('_' :: '_' :: X) = varGen X := by
  rw [varSearch_cons_underscore, if_neg (by decide), varGen_underscore, varGen_underscore]

theorem varGroup_idem (c : Char) (cs : Str) :
    varGroup c (cs.takeWhile wc) = varGroup c cs := by
  unfold varGroup
  rw [takeWhile_all (fun x hx => mem_takeWhile hx)]

theorem elemSearch_var {c : Char} (cs : Str) (hc : c.isAlpha = true) :
    elemSearch ('_' :: varGroup c cs) = none := by
  have hcu : c ≠ '_' := alpha_ne_underscore hc
  show elemSearch ('_' :: c :: cs.takeWhile wc) = none
  rw [elemSearch_cons, sepStep_snd_not_underscore _ hcu]
  apply elemSearch_no_underscore
  intro x hx
  rcases List.mem_cons.mp hx with h1 | h1
  · subst h1; exact hcu
  · exact wc_ne_underscore (mem_takeWhile h1)

theorem recon_parse (comp : Str) (el vr : Option Str) (css : Str) (st : Option Str)
    (hel : el = none ∨ ∃ rs, WfRuns rs ∧ el = some (interDots rs))
    (hvr : vr = none ∨ ∃ c cs, vr = some (varGroup c cs) ∧ c.isAlpha = true)
    (hcss : css ≠ [])
    (hnd : lastDD ('-' :: css) = none)
    (hst : ∀ s, st = some s → s ∈ STATES)
    (hstn : st = none → stripState css = (css, none)) :
    parseComponentTokenName (reconName comp ⟨el, vr, css, st⟩) comp =
      ⟨el, vr, css, st⟩ := by
  have hcsse : css.isEmpty = false := by
    cases css with
    | nil => exact absurd rfl hcss
    | cons a l => rfl
  have hndpp : lastDD ('-' :: (css ++ optUnderscore st)) = none := by
    cases st with
    | none =>
      show lastDD ('-' :: (css ++ [])) = none
      rw [List.append_nil]
      exact hnd
    | some s =>
      show lastDD (('-' :: css) ++ ('_' :: s)) = none
      apply lastDD_none_append_noDash hnd
      intro c hc
      rcases List.mem_cons.mp hc with h1 | h1
      · subst h1; decide
      · exact states_no_dash s (hst s rfl) c h1
  have hsp : stripState (css ++ optUnderscore st) = (css, st) := by
    cases st with
    | none =>
      show stripState (css ++ []) = (css, none)
      rw [List.append_nil]
      exact hstn rfl
    | some s => exact stripState_append_state (hst s rfl) css
  rcases hel with hel | ⟨rs, hwrs, hel⟩
  · rcases hvr with hvr | ⟨c, cs, hvr, hc⟩
    · -- element none, variant none
      subst hel
      subst hvr
      have hname : reconName comp ⟨none, none, css, st⟩ =
          ("--dsa-".toList ++ comp) ++ ('-' :: '-' :: (css ++ optUnderscore st)) := by
        unfold reconName
        dsimp only
        simp [optUnderscore, List.append_assoc]
      have hlead : stripLead (reconName comp ⟨none, none, css, st⟩) comp =
          '-' :: '-' :: (css ++ optUnderscore st) := by
        rw [hname, stripLead_dsa]
      have hld2 : lastDD ('-' :: '-' :: (css ++ optUnderscore st)) =
          some ([], css ++ optUnderscore st) := lastDD_append hndpp []
      have hbp : beforePropOf (reconName comp ⟨none, none, css, st⟩) comp = [] := by
        unfold beforePropOf splitProp
        rw [hlead, hld2]
      have hpp : propertyPartOf (reconName comp ⟨none, none, css, st⟩) comp =
          css ++ optUnderscore st := by
        unfold propertyPartOf splitProp
        rw [hlead, hld2]
      rw [parseCTN_eq, hbp, hpp, hsp]
      simp [hcsse]
    · -- element none, variant some
      subst hel
      subst hvr
      have hname : reconName comp ⟨none, some (varGroup c cs), css, st⟩ =
          ("--dsa-".toList ++ comp) ++
            (('_' :: varGroup c cs) ++ ('-' :: '-' :: (css ++ optUnderscore st))) := by
        unfold reconName
        dsimp only
        simp [optUnderscore, List.append_assoc]
      have hlead : stripLead (reconName comp ⟨none, some (varGroup c cs), css, st⟩)
          comp = ('_' :: varGroup c cs) ++ ('-' :: '-' :: (css ++ optUnderscore st)) := by
        rw [hname, stripLead_dsa]
      have hld2 : lastDD (('_' :: varGroup c cs) ++
          ('-' :: '-' :: (css ++ optUnderscore st))) =
          some ('_' :: varGroup c cs, css ++ optUnderscore st) :=
        lastDD_append hndpp ('_' :: varGroup c cs)
      have hbp : beforePropOf (reconName comp ⟨none, some (varGroup c cs), css, st⟩)
          comp = '_' :: varGroup c cs := by
        unfold beforePropOf splitProp
        rw [hlead, hld2]
      have hpp : propertyPartOf (reconName comp ⟨none, some (varGroup c cs), css, st⟩)
          comp = css ++ optUnderscore st := by
        unfold propertyPartOf splitProp
        rw [hlead, hld2]
      have hes : elemSearch ('_' :: varGroup c cs) = none := elemSearch_var cs hc
      have hvs : varSearch ('_' :: varGroup c cs) = some (varGroup c cs) := by
        show varSearch ('_' :: c :: cs.takeWhile wc) = _
        rw [varSearch_cons_underscore, if_pos hc, varGroup_idem]
      rw [parseCTN_eq, hbp, hpp, hsp]
      simp [hcsse, hes, hvs]
  · rcases hvr with hvr | ⟨c, cs, hvr, hc⟩
    · -- element some, variant none
      subst hel
      subst hvr
      have hname : reconName comp ⟨some (interDots rs), none, css, st⟩ =
          ("--dsa-".toList ++ comp) ++
            (('_' :: '_' :: interDD rs) ++ ('-' :: '-' :: (css ++ optUnderscore st))) := by
        unfold reconName
        dsimp only
        rw [dotsToDD_interDots hwrs]
        simp [optUnderscore, List.append_assoc]
      have hlead : stripLead (reconName comp ⟨some (interDots rs), none, css, st⟩)
          comp = ('_' :: '_' :: interDD rs) ++
            ('-' :: '-' :: (css ++ optUnderscore st)) := by
        rw [hname, stripLead_dsa]
      have hld2 : lastDD (('_' :: '_' :: interDD rs) ++
          ('-' :: '-' :: (css ++ optUnderscore st))) =
          some ('_' :: '_' :: interDD rs, css ++ optUnderscore st) :=
        lastDD_append hndpp ('_' :: '_' :: interDD rs)
      have hbp : beforePropOf (reconName comp ⟨some (interDots rs), none, css, st⟩)
          comp = '_' :: '_' :: interDD rs := by
        unfold beforePropOf splitProp
        rw [hlead, hld2]
      have hpp : propertyPartOf (reconName comp ⟨some (interDots rs), none, css, st⟩)
          comp = css ++ optUnderscore st := by
        unfold propertyPartOf splitProp
        rw [hlead, hld2]
      have hes : elemSearch ('_' :: '_' :: interDD rs) = some (interDD rs) := by
        have h2 := elemSearch_recover hwrs (Or.inl rfl)
        rw [List.append_nil] at h2
        exact h2
      have hvs : varSearch ('_' :: '_' :: interDD rs) = none := by
        rw [varSearch_sep]
        exact varGen_interDD_none hwrs
      rw [parseCTN_eq, hbp, hpp, hsp]
      simp [hcsse, hes, hvs, replaceDD_interDD hwrs]
    · -- element some, variant some
      subst hel
      subst hvr
      have hname : reconName comp
          ⟨some (interDots rs), some (varGroup c cs), css, st⟩ =
          ("--dsa-".toList ++ comp) ++
            (('_' :: '_' :: (interDD rs ++ '_' :: varGroup c cs)) ++
              ('-' :: '-' :: (css ++ optUnderscore st))) := by
        unfold reconName
        dsimp only
        rw [dotsToDD_interDots hwrs]
        simp [optUnderscore, List.append_assoc]
      have hlead : stripLead (reconName comp
          ⟨some (interDots rs), some (varGroup c cs), css, st⟩) comp =
          ('_' :: '_' :: (interDD rs ++ '_' :: varGroup c cs)) ++
            ('-' :: '-' :: (css ++ optUnderscore st)) := by
        rw [hname, stripLead_dsa]
      have hld2 : lastDD (('_' :: '_' :: (interDD rs ++ '_' :: varGroup c cs)) ++
          ('-' :: '-' :: (css ++ optUnderscore st))) =
          some ('_' :: '_' :: (interDD rs ++ '_' :: varGroup c cs),
            css ++ optUnderscore st) :=
        lastDD_append hndpp ('_' :: '_' :: (interDD rs ++ '_' :: varGroup c cs))
      have hbp : beforePropOf (reconName comp
          ⟨some (interDots rs), some (varGroup c cs), css, st⟩) comp =
          '_' :: '_' :: (interDD rs ++ '_' :: varGroup c cs) := by
        unfold beforePropOf splitProp
        rw [hlead, hld2]
      have hpp : propertyPartOf (reconName comp
          ⟨some (interDots rs), some (varGroup c cs), css, st⟩) comp =
          css ++ optUnderscore st := by
        unfold propertyPartOf splitProp
        rw [hlead, hld2]
      have hes : elemSearch ('_' :: '_' :: (interDD rs ++ '_' :: varGroup c cs)) =
          some (interDD rs) :=
        elemSearch_recover hwrs
          (Or.inr ⟨c, cs.takeWhile wc, rfl, alpha_ne_underscore hc⟩)
      have hvs : varSearch ('_' :: '_' :: (interDD rs ++ '_' :: varGroup c cs)) =
          some (varGroup c cs) := by
        rw [varSearch_sep]
        show varGen (interDD rs ++ '_' :: c :: cs.takeWhile wc) = _
        rw [varGen_interDD_var hwrs _ hc, varGroup_idem]
      rw [parseCTN_eq, hbp, hpp, hsp]
      simp [hcsse, hes, hvs, replaceDD_interDD hwrs]

/-- C8: for every token name conforming to the naming grammar, decomposition
round-trips: reconstructing the name from the decomposed fields back into the
grammar shape and decomposing it again (with the same known component) yields
the same four fields. -/
theorem claim8_roundtrip (comp : Str) (g : GParts) (_hw : WfParts g) :
    parseComponentTokenName
        (reconName comp (parseComponentTokenName (buildName comp g) comp)) comp =
      parseComponentTokenName (buildName comp g) comp := by
  have htail : stripLead (buildName comp g) comp =
      (elemsPart g.elems ++ optUnderscore g.variant) ++
        ('-' :: '-' :: (g.prop ++ optUnderscore g.state)) := by
    cases hdsa : g.dsa with
    | true =>
      have hbn : buildName comp g = ("--dsa-".toList ++ comp) ++
          ((elemsPart g.elems ++ optUnderscore g.variant) ++
            ('-' :: '-' :: (g.prop ++ optUnderscore g.state))) := by
        unfold buildName
        rw [hdsa]
        simp [List.append_assoc]
      rw [hbn, stripLead_dsa]
    | false =>
      have hbn : buildName comp g = ("--l-".toList ++ comp) ++
          ((elemsPart g.elems ++ optUnderscore g.variant) ++
            ('-' :: '-' :: (g.prop ++ optUnderscore g.state))) := by
        unfold buildName
        rw [hdsa]
        simp [List.append_assoc]
      rw [hbn, stripLead_l]
  have hx : ∃ pr, lastDD ((elemsPart g.elems ++ optUnderscore g.variant) ++
      ('-' :: '-' :: (g.prop ++ optUnderscore g.state))) = some pr := by
    cases hld : lastDD ((elemsPart g.elems ++ optUnderscore g.variant) ++
        ('-' :: '-' :: (g.prop ++ optUnderscore g.state))) with
    | some pr => exact ⟨pr, rfl⟩
    | none => exact absurd hld (lastDD_append_ne_none _ _)
  obtain ⟨⟨bp0, pp0⟩, hld⟩ := hx
  obtain ⟨htl, hnd0⟩ := lastDD_some hld
  have hbp : beforePropOf (buildName comp g) comp = bp0 := by
    unfold beforePropOf splitProp
    rw [htail, hld]
  have hpp : propertyPartOf (buildName comp g) comp = pp0 := by
    unfold propertyPartOf splitProp
    rw [htail, hld]
  rcases hsp : stripState pp0 with ⟨q, st0⟩
  have hParsed : parseComponentTokenName (buildName comp g) comp =
      ⟨(if bp0.isEmpty then (none, none)
        else ((elemSearch bp0).map replaceDD, varSearch bp0)).1,
       (if bp0.isEmpty then (none, none)
        else ((elemSearch bp0).map replaceDD, varSearch bp0)).2,
       (if q.isEmpty then "unknown".toList else q),
       st0⟩ := by
    rw [parseCTN_eq, hbp, hpp, hsp]
  have hel : (if bp0.isEmpty then ((none : Option Str), (none : Option Str))
      else ((elemSearch bp0).map replaceDD, varSearch bp0)).1 = none ∨
      ∃ rs, WfRuns rs ∧
        (if bp0.isEmpty then ((none : Option Str), (none : Option Str))
          else ((elemSearch bp0).map replaceDD, varSearch bp0)).1 =
          some (interDots rs) := by
    by_cases hbe : bp0.isEmpty = true
    · left; rw [if_pos hbe]
    · rw [if_neg hbe]
      dsimp only
      cases hes : elemSearch bp0 with
      | none => left; rfl
      | some g0 =>
        obtain ⟨rs, hwrs, hg⟩ := elemSearch_shape hes
        exact Or.inr ⟨rs, hwrs, by rw [hg]; simp [replaceDD_interDD hwrs]⟩
  have hvr : (if bp0.isEmpty then ((none : Option Str), (none : Option Str))
      else ((elemSearch bp0).map replaceDD, varSearch bp0)).2 = none ∨
      ∃ c cs, (if bp0.isEmpty then ((none : Option Str), (none : Option Str))
        else ((elemSearch bp0).map replaceDD, varSearch bp0)).2 =
          some (varGroup c cs) ∧ c.isAlpha = true := by
    by_cases hbe : bp0.isEmpty = true
    · left; rw [if_pos hbe]
    · rw [if_neg hbe]
      dsimp only
      cases hvs : varSearch bp0 with
      | none => left; rfl
      | some v =>
        obtain ⟨c, cs, hv, hc⟩ := varSearch_shape hvs
        exact Or.inr ⟨c, cs, by rw [hv], hc⟩
  have hqnone : st0 = none → q = pp0 := by
    intro h0
    have h1 := (stripState_none pp0 (by rw [hsp]; exact h0)).1
    rw [hsp] at h1
    exact h1
  have hqsome : ∀ s, st0 = some s → s ∈ STATES ∧ pp0 = q ++ '_' :: s := by
    intro s hs0
    exact stripState_some pp0 q s (by rw [hsp, hs0])
  have hndq : lastDD ('-' :: q) = none := by
    cases hst0 : st0 with
    | none => rw [hqnone hst0]; exact hnd0
    | some s =>
      obtain ⟨hmem, hppq⟩ := hqsome s hst0
      have h2 : lastDD (('-' :: q) ++ '_' :: s) = none := by
        show lastDD ('-' :: (q ++ '_' :: s)) = none
        rw [← hppq]
        exact hnd0
      exact lastDD_none_of_append h2
  have hcssne : (if q.isEmpty then "unknown".toList else q) ≠ [] := by
    by_cases hqe : q.isEmpty = true
    · rw [if_pos hqe]; decide
    · rw [if_neg hqe]
      cases q with
      | nil => exact absurd rfl hqe
      | cons a l => exact List.cons_ne_nil a l
  have hcssnd : lastDD ('-' :: (if q.isEmpty then "unknown".toList else q)) = none := by
    by_cases hqe : q.isEmpty = true
    · rw [if_pos hqe]; decide
    · rw [if_neg hqe]; exact hndq
  have hstS : ∀ s, st0 = some s → s ∈ STATES := fun s hs => (hqsome s hs).1
  have hstn : st0 = none →
      stripState (if q.isEmpty then "unknown".toList else q) =
        ((if q.isEmpty then "unknown".toList else q), none) := by
    intro h0
    by_cases hqe : q.isEmpty = true
    · rw [if_pos hqe]; decide
    · rw [if_neg hqe]
      have h1 := hqnone h0
      rw [h1, hsp, h0, h1]
  rw [hParsed]
  exact recon_parse comp _ _ _ _ hel hvr hcssne hcssnd hstS hstn

/-- Witness for C8 at a concrete grammar-conforming name. -/
theorem claim8_roundtrip_witness :
    parseComponentTokenName
        (reconName "button".toList
          (parseComponentTokenName
            (buildName "button".toList
              ⟨true, [], some "primary".toList, "background-color".toList,
                some "hover".toList⟩) "button".toList)) "button".toList =
      parseComponentTokenName
        (buildName "button".toList
          ⟨true, [], some "primary".toList, "background-color".toList,
            some "hover".toList⟩) "button".toList := by
  apply claim8_roundtrip "button".toList
    ⟨true, [], some "primary".toList, "background-color".toList, some "hover".toList⟩
  refine ⟨by simp, ?_, by decide, by decide, by decide⟩
  intro v hv
  have hveq : v = "primary".toList := (Option.some.inj hv).symm
  subst hveq
  exact ⟨'p', "rimary".toList, by decide, by decide, by decide⟩

example :
    parseComponentTokenName
        (reconName "text".toList
          (parseComponentTokenName
            "--dsa-text__highlight__mark_secondary--color_hover".toList
            "text".toList)) "text".toList =
      parseComponentTokenName
        "--dsa-text__highlight__mark_secondary--color_hover".toList
        "text".toList := by decide

/-- A parsed token record (source `tokenData`). -/
structure TokenData where
  value : Str
  file : Str
  category : Str
  sect : Option Str
  comment : Option Str
deriving Repr, DecidableEq

/-- JS `Map.set`: replace the entry in place if the key exists, else append. -/
def setEntry : List (Str × TokenData) → Str → TokenData → List (Str × TokenData)
  | [], k, v => [(k, v)]
  | (k', v') :: rest, k, v =>
    if k' = k then (k, v) :: rest else (k', v') :: setEntry rest k v

/-- JS `Map.get` as an association-list lookup (first match). -/
def lookupTok : List (Str × TokenData) → Str → Option TokenData
  | [], _ => none
  | (k', v') :: rest, k => if k' = k then some v' else lookupTok rest k

/-- JS `Array.join(sep)`. -/
def joinSep (sep : Str) : List Str → Str
  | [] => []
  | [x] => x
  | x :: y :: xs => x ++ sep ++ joinSep sep (y :: xs)

/-- Comment-machinery state of the `parseTokenFile` line loop. -/
structure CState where
  curSection : Option Str
  pendingComments : List Str
  inBlockComment : Bool
  blockCommentLines : List Str
deriving Repr, DecidableEq

/-- `replace(/^\*\s*/, "")`: strip one leading `*` and following whitespace. -/
def stripStarWs (l : Str) : Str :=
  if startsWithL "*".toList l then (l.drop 1).dropWhile isWS else l

/-- Prefix of `l` before the first occurrence of `pat`
(JS `replace(/pat.*$/, "")` for a leftmost match). -/
def takeBeforeSub (pat : Str) : Str → Str
  | [] => []
  | c :: cs => if startsWithL pat (c :: cs) then [] else c :: takeBeforeSub pat cs

/-- Match of `^\/\*\s*(.+?)\s*\*\/$` against a trimmed line. The lazy group
needs at least one character, so the delimiters alone (`/**/`, `/*/`) fail;
a whitespace-only interior still matches, the leading greedy `\s*` backing
off one character so the group captures the interior's last character; any
other interior yields its trimmed form (leading `\s*` maximal, `.+?` minimal,
trailing `\s*` up to the closing `*\/$`). -/
def singleLineBlock (trimmed : Str) : Option Str :=
  if startsWithL "/*".toList trimmed && endsWithL "*/".toList trimmed then
    let mid := (trimmed.drop 2).take (trimmed.length - 4)
    match mid.getLast? with
    | none => none
    | some c => if (trimL mid).isEmpty then some [c] else some (trimL mid)
  else none

/-- Match of `--([a-zA-Z0-9_-]+)\s*:\s*([^;]+);` at the head of `l`, returning
the token name (with `--`) and the raw value chunk before trimming. -/
def tokenMatchAt (l : Str) : Option (Str × Str) :=
  if startsWithL "--".toList l then
    let g1 := (l.drop 2).takeWhile nameCh
    if g1.isEmpty then none
    else
      match ((l.drop 2).dropWhile nameCh).dropWhile isWS with
      | ':' :: rest2 =>
        let chunk := rest2.takeWhile (fun c => c ≠ ';')
        if chunk.isEmpty then none
        else
          match rest2.dropWhile (fun c => c ≠ ';') with
          | ';' :: _ => some ('-' :: '-' :: g1, chunk)
          | _ => none
      | _ => none
  else none

/-- Leftmost match of the declaration regex over the whole line. -/
def findTokenMatch : Str → Option (Str × Str)
  | [] => none
  | c :: cs =>
    match tokenMatchAt (c :: cs) with
    | some m => some m
    | none => findTokenMatch cs

/-- Leftmost match of `;\s*\/\/\s*(.+)$`, returning the trimmed group. -/
def inlineSlash : Str → Option Str
  | [] => none
  | c :: cs =>
    if c = ';' then
      let r := cs.dropWhile isWS
      if startsWithL "//".toList r then
        let rr := r.drop 2
        if rr.isEmpty then inlineSlash cs
        else some (trimL (rr.dropWhile isWS))
      else inlineSlash cs
    else inlineSlash cs

/-- Content scan of `(.+?)\s*\*\/\s*$`: the first `*/` with only whitespace
after it, requiring at least one character before it. -/
def blockContentAux (acc : Str) : Str → Option Str
  | [] => none
  | c :: cs =>
    if startsWithL "*/".toList (c :: cs) && (cs.drop 1).all isWS && !acc.isEmpty then
      some (trimL acc.reverse)
    else blockContentAux (c :: acc) cs

/-- Leftmost match of `;\s*\/\*\s*(.+?)\s*\*\/\s*$`, returning the trimmed
group. -/
def inlineBlock : Str → Option Str
  | [] => none
  | c :: cs =>
    if c = ';' then
      let r := cs.dropWhile isWS
      if startsWithL "/*".toList r then
        match blockContentAux [] (r.drop 2) with
        | some g => some g
        | none => inlineBlock cs
      else inlineBlock cs
    else inlineBlock cs

/-- One iteration of the `parseTokenFile` line loop, excluding the token-map
update: returns the next comment state and the declaration emitted by this
line, if any. -/
def stepLine (fileName category : Str) (st : CState) (line : Str) :
    CState × Option (Str × TokenData) :=
  let trimmed := trimL line
  if startsWithL "/*".toList trimmed && !(containsSub "*/".toList trimmed) then
    let cstart := trimL ((trimmed.drop 2).dropWhile isWS)
    let st2 := { st with
      inBlockComment := true
      blockCommentLines := st.blockCommentLines ++
        (if cstart.isEmpty then [] else [cstart]) }
    (st2, none)
  else if st.inBlockComment then
    if containsSub "*/".toList trimmed then
      let cend := trimL (stripStarWs (takeBeforeSub "*/".toList trimmed))
      let bcl := st.blockCommentLines ++ (if cend.isEmpty then [] else [cend])
      let st2 := { st with
        inBlockComment := false
        blockCommentLines := ([] : List Str)
        pendingComments := st.pendingComments ++
          (if bcl.isEmpty then [] else [joinSep " ".toList bcl]) }
      (st2, none)
    else
      let m := trimL (stripStarWs trimmed)
      let st2 := { st with
        blockCommentLines := st.blockCommentLines ++
          (if m.isEmpty then [] else [m]) }
      (st2, none)
  else
    match singleLineBlock trimmed with
    | some g => ({ st with pendingComments := st.pendingComments ++ [g] }, none)
    | none =>
      if startsWithL "///".toList trimmed then
        let st2 := { st with
          curSection := some (trimL ((trimmed.drop 3).dropWhile isWS))
          pendingComments := ([] : List Str) }
        (st2, none)
      else if startsWithL "//".toList trimmed then
        let ctext := trimL ((trimmed.drop 2).dropWhile isWS)
        let st2 := { st with
          pendingComments := st.pendingComments ++
            (if ctext.isEmpty then [] else [ctext]) }
        (st2, none)
      else
        match findTokenMatch line with
        | some (name, rawChunk) =>
          let tokenValue := collapseWS (trimL rawChunk)
          let inline :=
            match inlineSlash line with
            | some c => some c
            | none => inlineBlock line
          let allComments := st.pendingComments ++
            (match inline with
             | some c => if c.isEmpty then [] else [c]
             | none => [])
          let data : TokenData :=
            { value := tokenValue, file := fileName, category := category,
              sect := st.curSection,
              comment := if allComments.isEmpty then none
                         else some (joinSep " | ".toList allComments) }
          ({ st with pendingComments := [] }, some (name, data))
        | none =>
          if !(startsWithL "//".toList trimmed) && !(startsWithL "/*".toList trimmed) &&
              !(containsSub "--".toList trimmed) && !(trimmed.isEmpty) &&
              !(startsWithL "\x7b".toList trimmed) && !(startsWithL "\x7d".toList trimmed) &&
              (containsSub ":root".toList trimmed || containsSub "[ks-".toList trimmed) then
            ({ st with pendingComments := [] }, none)
          else (st, none)

/-- JS `content.split("\n")` (keeps empty segments). -/
def splitNl : Str → List Str
  | [] => [[]]
  | c :: cs =>
    if c = '\n' then [] :: splitNl cs
    else
      match splitNl cs with
      | [] => [[c]]
      | l :: ls => (c :: l) :: ls

/-- The full line loop: thread the token map and the comment state. -/
def runLines (fileName category : Str) :
    List (Str × TokenData) × CState → List Str → List (Str × TokenData) × CState
  | acc, [] => acc
  | (toks, cst), line :: rest =>
    match stepLine fileName category cst line with
    | (cst', some (n, d)) => runLines fileName category (setEntry toks n d, cst') rest
    | (cst', none) => runLines fileName category (toks, cst') rest

/-- Initial comment state. -/
def initC : CState := ⟨none, [], false, []⟩

/-- Source `parseTokenFile` on explicit text content: the returned token map. -/
def parseTokenFileM (content fileName category : Str) : List (Str × TokenData) :=
  (runLines fileName category ([], initC) (splitNl content)).1

/-- The declarations emitted by the line loop, in order. -/
def emissions (fileName category : Str) : CState → List Str → List (Str × TokenData)
  | _, [] => []
  | cst, line :: rest =>
    match stepLine fileName category cst line with
    | (cst', some p) => p :: emissions fileName category cst' rest
    | (cst', none) => emissions fileName category cst' rest

example :
    parseTokenFileM
        "/* Sizes */\n--dsa-button--padding: 0.75em  1.5em; // default\n".toList
        "button-tokens.scss".toList "forms".toList =
      [("--dsa-button--padding".toList,
        ⟨"0.75em 1.5em".toList, "button-tokens.scss".toList, "forms".toList,
          none, some "Sizes | default".toList⟩)] := by decide

/-- Left-biased choice on optional token data. -/
def orO (a b : Option TokenData) : Option TokenData :=
  match a with
  | some x => some x
  | none => b

/-- The predicate "this entry's key is `n`". -/
def keyIs (n : Str) (e : Str × TokenData) : Bool := e.1 = n

/-- The value of the last entry for key `n` in an emission list. -/
def lastVal (es : List (Str × TokenData)) (n : Str) : Option TokenData :=
  ((es.filter (keyIs n)).map Prod.snd).getLast?

theorem orO_assoc (a b c : Option TokenData) : orO (orO a b) c = orO a (orO b c) := by
  cases a <;> rfl

theorem orO_none_right (a : Option TokenData) : orO a none = a := by
  cases a <;> rfl

theorem lookupTok_cons (k : Str) (v : TokenData) (rest : List (Str × TokenData))
    (n : Str) :
    lookupTok ((k, v) :: rest) n = if k = n then some v else lookupTok rest n := rfl

theorem lookup_setEntry : ∀ (toks : List (Str × TokenData)) (m : Str) (d : TokenData)
    (n : Str), lookupTok (setEntry toks m d) n =
      if m = n then some d else lookupTok toks n := by
  intro toks m d n
  induction toks with
  | nil => rfl
  | cons e rest ih =>
    rcases e with ⟨k', v'⟩
    show lookupTok (if k' = m then (m, d) :: rest else (k', v') :: setEntry rest m d) n = _
    by_cases hk : k' = m
    · rw [if_pos hk, lookupTok_cons, lookupTok_cons]
      by_cases hn : m = n
      · rw [if_pos hn, if_pos hn]
      · have hk'n : ¬ k' = n := by rw [hk]; exact hn
        rw [if_neg hn, if_neg hn, if_neg hk'n]
    · rw [if_neg hk, lookupTok_cons, lookupTok_cons]
      by_cases hkn : k' = n
      · have hmn : ¬ m = n := fun h => hk (hkn.trans h.symm)
        rw [if_pos hkn, if_neg hmn, if_pos hkn]
      · rw [if_neg hkn, if_neg hkn, ih]

theorem getLast?_cons_orO (x : TokenData) (l : List TokenData) :
    (x :: l).getLast? = orO l.getLast? (some x) := by
  cases l with
  | nil => rfl
  | cons y t =>
    rw [List.getLast?_cons_cons]
    cases h : (y :: t).getLast? with
    | none =>
      exfalso
      rw [List.getLast?_eq_none_iff] at h
      exact List.cons_ne_nil y t h
    | some z => rfl

theorem lastVal_cons (m : Str) (d : TokenData) (es : List (Str × TokenData)) (n : Str) :
    lastVal ((m, d) :: es) n = orO (lastVal es n) (if m = n then some d else none) := by
  unfold lastVal
  by_cases hmn : m = n
  · have hp : keyIs n (m, d) = true := by simp [keyIs, hmn]
    rw [List.filter_cons_of_pos hp, List.map_cons, getLast?_cons_orO, if_pos hmn]
  · have hp : ¬ keyIs n (m, d) = true := by simp [keyIs, hmn]
    rw [List.filter_cons_of_neg hp, if_neg hmn, orO_none_right]

theorem runLines_cons (fn cat : Str) (toks : List (Str × TokenData)) (cst : CState)
    (line : Str) (rest : List Str) :
    runLines fn cat (toks, cst) (line :: rest) =
      match stepLine fn cat cst line with
      | (cst', some (n, d)) => runLines fn cat (setEntry toks n d, cst') rest
      | (cst', none) => runLines fn cat (toks, cst') rest := rfl

theorem emissions_cons (fn cat : Str) (cst : CState) (line : Str) (rest : List Str) :
    emissions fn cat cst (line :: rest) =
      match stepLine fn cat cst line with
      | (cst', some p) => p :: emissions fn cat cst' rest
      | (cst', none) => emissions fn cat cst' rest := rfl

theorem runLines_lookup (fn cat : Str) : ∀ (lines : List Str)
    (toks : List (Str × TokenData)) (cst : CState) (n : Str),
    lookupTok (runLines fn cat (toks, cst) lines).1 n =
      orO (lastVal (emissions fn cat cst lines) n) (lookupTok toks n) := by
  intro lines
  induction lines with
  | nil => intro toks cst n; rfl
  | cons line rest ih =>
    intro toks cst n
    rcases hs : stepLine fn cat cst line with ⟨cst', e⟩
    cases e with
    | none =>
      rw [runLines_cons, emissions_cons, hs]
      exact ih toks cst' n
    | some p =>
      rcases p with ⟨m, d⟩
      rw [runLines_cons, emissions_cons, hs]
      dsimp only
      rw [ih, lookup_setEntry, lastVal_cons, orO_assoc]
      congr 1
      by_cases hmn : m = n
      · rw [if_pos hmn, if_pos hmn]
        rfl
      · rw [if_neg hmn, if_neg hmn]
        rfl

/-- Keys of a token map. -/
def keysOf (m : List (Str × TokenData)) : List Str := m.map Prod.fst

theorem keysOf_cons (k : Str) (v : TokenData) (rest : List (Str × TokenData)) :
    keysOf ((k, v) :: rest) = k :: keysOf rest := rfl

theorem mem_keys_setEntry : ∀ {toks : List (Str × TokenData)} {m : Str}
    {d : TokenData} {x : Str}, x ∈ keysOf (setEntry toks m d) →
    x = m ∨ x ∈ keysOf toks := by
  intro toks
  induction toks with
  | nil =>
    intro m d x hx
    rw [show setEntry [] m d = [(m, d)] from rfl, keysOf_cons] at hx
    rcases List.mem_cons.mp hx with h1 | h1
    · exact Or.inl h1
    · exact absurd h1 (by simp [keysOf])
  | cons e rest ih =>
    intro m d x hx
    rcases e with ⟨k', v'⟩
    by_cases hk : k' = m
    · rw [show setEntry ((k', v') :: rest) m d =
          (if k' = m then (m, d) :: rest else (k', v') :: setEntry rest m d) from rfl,
        if_pos hk, keysOf_cons] at hx
      rcases List.mem_cons.mp hx with h1 | h1
      · exact Or.inl h1
      · exact Or.inr (by rw [keysOf_cons]; exact List.mem_cons_of_mem _ h1)
    · rw [show setEntry ((k', v') :: rest) m d =
          (if k' = m then (m, d) :: rest else (k', v') :: setEntry rest m d) from rfl,
        if_neg hk, keysOf_cons] at hx
      rcases List.mem_cons.mp hx with h1 | h1
      · exact Or.inr (by rw [keysOf_cons, h1]; exact List.mem_cons_self _ _)
      · rcases ih h1 with h2 | h2
        · exact Or.inl h2
        · exact Or.inr (by rw [keysOf_cons]; exact List.mem_cons_of_mem _ h2)

theorem setEntry_keys_nodup : ∀ {toks : List (Str × TokenData)} (m : Str)
    (d : TokenData), (keysOf toks).Nodup → (keysOf (setEntry toks m d)).Nodup := by
  intro toks
  induction toks with
  | nil =>
    intro m d _
    rw [show setEntry [] m d = [(m, d)] from rfl, keysOf_cons]
    simp [keysOf]
  | cons e rest ih =>
    intro m d h
    rcases e with ⟨k', v'⟩
    rw [keysOf_cons, List.nodup_cons] at h
    by_cases hk : k' = m
    · rw [show setEntry ((k', v') :: rest) m d =
          (if k' = m then (m, d) :: rest else (k', v') :: setEntry rest m d) from rfl,
        if_pos hk, keysOf_cons, List.nodup_cons]
      exact ⟨by rw [← hk]; exact h.1, h.2⟩
    · rw [show setEntry ((k', v') :: rest) m d =
          (if k' = m then (m, d) :: rest else (k', v') :: setEntry rest m d) from rfl,
        if_neg hk, keysOf_cons, List.nodup_cons]
      refine ⟨?_, ih m d h.2⟩
      intro hmem
      rcases mem_keys_setEntry hmem with h1 | h1
      · exact hk h1
      · exact h.1 h1

theorem runLines_nodup (fn cat : Str) : ∀ (lines : List Str)
    (toks : List (Str × TokenData)) (cst : CState),
    (keysOf toks).Nodup → (keysOf (runLines fn cat (toks, cst) lines).1).Nodup := by
  intro lines
  induction lines with
  | nil => intro toks cst h; exact h
  | cons line rest ih =>
    intro toks cst h
    rcases hs : stepLine fn cat cst line with ⟨cst', e⟩
    cases e with
    | none =>
      rw [runLines_cons, hs]
      exact ih toks cst' h
    | some p =>
      rcases p with ⟨m, d⟩
      rw [runLines_cons, hs]
      exact ih _ cst' (setEntry_keys_nodup m d h)

theorem lastVal_none_of_not_mem : ∀ {es : List (Str × TokenData)} {n : Str},
    n ∉ keysOf es → lastVal es n = none := by
  intro es
  induction es with
  | nil => intro n _; rfl
  | cons e rest ih =>
    intro n hn
    rcases e with ⟨k, v⟩
    rw [keysOf_cons] at hn
    have h1 : n ≠ k := fun h => hn (by rw [h]; exact List.mem_cons_self _ _)
    have h2 : n ∉ keysOf rest := fun h => hn (List.mem_cons_of_mem _ h)
    rw [lastVal_cons, if_neg (fun h => h1 h.symm), orO_none_right]
    exact ih h2

theorem lookup_eq_lastVal_of_nodup : ∀ {es : List (Str × TokenData)},
    (keysOf es).Nodup → ∀ n, lookupTok es n = lastVal es n := by
  intro es
  induction es with
  | nil => intro _ n; rfl
  | cons e rest ih =>
    intro h n
    rcases e with ⟨k, v⟩
    rw [keysOf_cons, List.nodup_cons] at h
    rw [lookupTok_cons, lastVal_cons]
    by_cases hk : k = n
    · rw [if_pos hk, if_pos hk]
      have h2 : lastVal rest n = none := by
        apply lastVal_none_of_not_mem
        rw [← hk]
        exact h.1
      rw [h2]
      rfl
    · rw [if_neg hk, if_neg hk, orO_none_right]
      exact ih h.2 n

/-- The per-entry merge loop of `parseAllTokens`. -/
def mergeInto (acc entries : List (Str × TokenData)) : List (Str × TokenData) :=
  entries.foldl (fun a e => setEntry a e.1 e.2) acc

/-- Source `parseAllTokens` over explicit content sources
`(fileName, category, content)`: parse each and merge into one map. -/
def parseAllTokensM (sources : List (Str × Str × Str)) : List (Str × TokenData) :=
  sources.foldl (fun acc s => mergeInto acc (parseTokenFileM s.2.2 s.1 s.2.1)) []

theorem mergeInto_lookup : ∀ (entries acc : List (Str × TokenData)) (n : Str),
    lookupTok (mergeInto acc entries) n = orO (lastVal entries n) (lookupTok acc n) := by
  intro entries
  induction entries with
  | nil => intro acc n; rfl
  | cons e rest ih =>
    intro acc n
    rcases e with ⟨m, d⟩
    show lookupTok (mergeInto (setEntry acc m d) rest) n = _
    rw [ih, lookup_setEntry, lastVal_cons, orO_assoc]
    congr 1
    by_cases hmn : m = n
    · rw [if_pos hmn, if_pos hmn]
      rfl
    · rw [if_neg hmn, if_neg hmn]
      rfl

theorem getLast?_append_orO (xs ys : List TokenData) :
    (xs ++ ys).getLast? = orO ys.getLast? xs.getLast? := by
  induction xs with
  | nil =>
    rw [List.nil_append]
    show ys.getLast? = orO ys.getLast? none
    rw [orO_none_right]
  | cons x xs' ih =>
    rw [List.cons_append, getLast?_cons_orO, getLast?_cons_orO, ih, orO_assoc]

theorem parse_nodup (content fn cat : Str) :
    (keysOf (parseTokenFileM content fn cat)).Nodup :=
  runLines_nodup fn cat (splitNl content) [] initC (by simp [keysOf])

theorem parseAll_lookup : ∀ (sources : List (Str × Str × Str)) (n : Str),
    lookupTok (parseAllTokensM sources) n =
      ((sources.map (fun s =>
          lookupTok (parseTokenFileM s.2.2 s.1 s.2.1) n)).filterMap id).getLast? := by
  have key : ∀ (sources : List (Str × Str × Str)) (acc : List (Str × TokenData))
      (n : Str),
      lookupTok (sources.foldl
          (fun acc s => mergeInto acc (parseTokenFileM s.2.2 s.1 s.2.1)) acc) n =
        orO (((sources.map (fun s =>
            lookupTok (parseTokenFileM s.2.2 s.1 s.2.1) n)).filterMap id).getLast?)
          (lookupTok acc n) := by
    intro sources
    induction sources with
    | nil => intro acc n; rfl
    | cons s rest ih =>
      intro acc n
      show lookupTok (rest.foldl _
          (mergeInto acc (parseTokenFileM s.2.2 s.1 s.2.1))) n = _
      rw [ih, mergeInto_lookup,
        ← lookup_eq_lastVal_of_nodup (parse_nodup s.2.2 s.1 s.2.1) n, ← orO_assoc]
      congr 1
      rw [List.map_cons, List.filterMap_cons]
      cases hg : lookupTok (parseTokenFileM s.2.2 s.1 s.2.1) n with
      | none =>
        dsimp only [id]
        rw [orO_none_right]
      | some d =>
        dsimp only [id]
        rw [getLast?_cons_orO]
  intro sources n
  have h := key sources [] n
  rw [show lookupTok [] n = none from rfl, orO_none_right] at h
  exact h

/-- C6: duplicate token names resolve last-wins and never raise a conflict:
within one text the returned mapping has unique keys and maps each name to
the data of its last declaration (the last emission of the line loop); when
several sources declare the same name, the merged registry keeps the record
of the most-recently-parsed source containing it. -/
theorem claim6_lastwins :
    (∀ content fn cat n,
      (keysOf (parseTokenFileM content fn cat)).Nodup ∧
      lookupTok (parseTokenFileM content fn cat) n =
        lastVal (emissions fn cat initC (splitNl content)) n) ∧
    (∀ sources n,
      lookupTok (parseAllTokensM sources) n =
        ((sources.map (fun s =>
            lookupTok (parseTokenFileM s.2.2 s.1 s.2.1) n)).filterMap id).getLast?) := by
  constructor
  · intro content fn cat n
    refine ⟨parse_nodup content fn cat, ?_⟩
    have h := runLines_lookup fn cat (splitNl content) [] initC n
    rw [show lookupTok [] n = none from rfl, orO_none_right] at h
    exact h
  · exact parseAll_lookup

example :
    lookupTok (parseTokenFileM "--a: 1;\n--x: 9;\n--a: 2;".toList "f".toList
        "c".toList) "--a".toList =
      some ⟨"2".toList, "f".toList, "c".toList, none, none⟩ := by decide

example :
    lookupTok (parseAllTokensM
        [("f1".toList, "c1".toList, "--a: 1;".toList),
         ("f2".toList, "c2".toList, "--a: 2;".toList)]) "--a".toList =
      some ⟨"2".toList, "f2".toList, "c2".toList, none, none⟩ := by decide

/-- C4 counterexample: parsing `/* Sizes */\n--dsa-button--padding: 0.75em
1.5em; // default\n` yields one record whose comment is `"Sizes | default"`,
not `"default"` as the claim states (the preceding block comment is joined
with the trailing comment by `" | "`). -/
theorem claim4_counterexample :
    parseTokenFileM
        "/* Sizes */\n--dsa-button--padding: 0.75em  1.5em; // default\n".toList
        "button-tokens.scss".toList "forms".toList =
      [("--dsa-button--padding".toList,
        ⟨"0.75em 1.5em".toList, "button-tokens.scss".toList, "forms".toList,
          none, some "Sizes | default".toList⟩)] ∧
    "Sizes | default".toList ≠ "default".toList := by decide

/-- C4 amended: the two-line text parses to exactly one TokenRecord whose
value is `"0.75em 1.5em"` (internal whitespace collapsed) and whose comment is
`"Sizes | default"` (pending comment and trailing comment joined by `" | "`). -/
theorem claim4_amended :
    parseTokenFileM
        "/* Sizes */\n--dsa-button--padding: 0.75em  1.5em; // default\n".toList
        "button-tokens.scss".toList "forms".toList =
      [("--dsa-button--padding".toList,
        ⟨"0.75em 1.5em".toList, "button-tokens.scss".toList, "forms".toList,
          none, some "Sizes | default".toList⟩)] := by decide

/-- One result record of `searchTokens` (with JS object-spread optionality of
`section` and `comment` modeled as `Option`). -/
structure SearchResult where
  name : Str
  value : Str
  file : Str
  category : Str
  sect : Option Str
  comment : Option Str
deriving Repr, DecidableEq

/-- JS truthiness of a possibly-absent string: present and non-empty. -/
def truthyO : Option Str → Bool
  | none => false
  | some s => !s.isEmpty

/-- JS `...(x && \x7b key: x \x7d)`: keep the field only when truthy. -/
def optTruthy (o : Option Str) : Option Str := if truthyO o then o else none

/-- Per-entry body of the `searchTokens` loop. -/
def searchStep (lowerPattern searchIn : Str) (nd : Str × TokenData) :
    Option SearchResult :=
  let matchName := decide (searchIn = "both".toList) ||
    decide (searchIn = "name".toList)
  let matchValue := decide (searchIn = "both".toList) ||
    decide (searchIn = "value".toList)
  let matchComment := decide (searchIn = "both".toList) && truthyO nd.2.comment
  let nameMatches := matchName && containsSub lowerPattern (lowerL nd.1)
  let valueMatches := matchValue && containsSub lowerPattern (lowerL nd.2.value)
  let commentMatches := matchComment &&
    containsSub lowerPattern (lowerL (nd.2.comment.getD []))
  if nameMatches || valueMatches || commentMatches then
    some ⟨nd.1, nd.2.value, nd.2.file, nd.2.category, optTruthy nd.2.sect,
      optTruthy nd.2.comment⟩
  else none

/-- `searchTokens(tokens, pattern, searchIn)`. -/
def searchTokens (tokens : List (Str × TokenData)) (pattern searchIn : Str) :
    List SearchResult :=
  tokens.filterMap (searchStep (lowerL pattern) searchIn)

/-- The result record produced for entry `(name, data)`. -/
def mkSearchResult (name : Str) (data : TokenData) : SearchResult :=
  ⟨name, data.value, data.file, data.category, optTruthy data.sect,
    optTruthy data.comment⟩

/-- C10: searchTokens consults a token's comment only in scope "both": an
entry whose comment contains the pattern while its name and value do not is
returned under scope "both", and its record is never returned under scope
"name" or scope "value". -/
theorem claim10_comment_scope (tokens : List (Str × TokenData))
    (pattern name : Str) (data : TokenData)
    (hmem : (name, data) ∈ tokens)
    (hc : truthyO data.comment = true)
    (hcm : containsSub (lowerL pattern) (lowerL (data.comment.getD [])) = true)
    (hnm : containsSub (lowerL pattern) (lowerL name) = false)
    (hvm : containsSub (lowerL pattern) (lowerL data.value) = false) :
    mkSearchResult name data ∈ searchTokens tokens pattern "both".toList ∧
    mkSearchResult name data ∉ searchTokens tokens pattern "name".toList ∧
    mkSearchResult name data ∉ searchTokens tokens pattern "value".toList := by
  refine ⟨?_, ?_, ?_⟩
  · refine List.mem_filterMap.mpr ⟨(name, data), hmem, ?_⟩
    simp +decide only [searchStep]
    rw [hnm, hvm, hc, hcm]
    simp [mkSearchResult]
  · intro hbad
    obtain ⟨⟨n', d'⟩, _hm', hstep⟩ := List.mem_filterMap.mp hbad
    simp +decide only [searchStep] at hstep
    split at hstep
    · next hcond =>
      simp only [mkSearchResult, Option.some.injEq, SearchResult.mk.injEq]
        at hstep
      rw [hstep.1] at hcond
      simp at hcond
      rw [hcond] at hnm
      exact Bool.noConfusion hnm
    · exact Option.noConfusion hstep
  · intro hbad
    obtain ⟨⟨n', d'⟩, _hm', hstep⟩ := List.mem_filterMap.mp hbad
    simp +decide only [searchStep] at hstep
    split at hstep
    · next hcond =>
      simp only [mkSearchResult, Option.some.injEq, SearchResult.mk.injEq]
        at hstep
      rw [hstep.2.1] at hcond
      simp at hcond
      rw [hcond] at hvm
      exact Bool.noConfusion hvm
    · exact Option.noConfusion hstep

/-- C10 witness: a concrete token whose comment contains "size" while its
name and value do not is found under "both" and absent under "name" and
"value". -/
theorem claim10_comment_scope_witness :
    mkSearchResult "--a".toList
        ⟨"1".toList, "f".toList, "c".toList, none, some "Sizes | default".toList⟩ ∈
      searchTokens [("--a".toList,
        ⟨"1".toList, "f".toList, "c".toList, none, some "Sizes | default".toList⟩)]
        "size".toList "both".toList ∧
    mkSearchResult "--a".toList
        ⟨"1".toList, "f".toList, "c".toList, none, some "Sizes | default".toList⟩ ∉
      searchTokens [("--a".toList,
        ⟨"1".toList, "f".toList, "c".toList, none, some "Sizes | default".toList⟩)]
        "size".toList "name".toList ∧
    mkSearchResult "--a".toList
        ⟨"1".toList, "f".toList, "c".toList, none, some "Sizes | default".toList⟩ ∉
      searchTokens [("--a".toList,
        ⟨"1".toList, "f".toList, "c".toList, none, some "Sizes | default".toList⟩)]
        "size".toList "value".toList :=
  claim10_comment_scope _ _ _ _ (List.mem_singleton.mpr rfl) (by decide)
    (by decide) (by decide) (by decide)

/-- Per-token configuration inside a rule document (`role`, `rationale`,
optional `validContexts` / `invalidContexts`). -/
structure TokenCfg where
  role : Str
  rationale : Str
  validContexts : Option (List Str)
  invalidContexts : Option (List Str)
deriving Repr, DecidableEq

/-- A design-rule document as consumed by the validator (`id`, `name`,
`tokens` object, `semanticAlternatives` object, `_sourceFile`). -/
structure RuleDoc where
  id : Str
  name : Str
  tokens : List (Str × TokenCfg)
  semanticAlternatives : List (Str × Str)
  sourceFile : Str
deriving Repr, DecidableEq

/-- JS object property lookup on a key-value list (keys unique in practice;
first match). -/
def lookupA {α : Type} (l : List (Str × α)) (k : Str) : Option α :=
  match l.find? (fun p => p.1 = k) with
  | some p => some p.2
  | none => none

/-- The body of `loadDesignRules` once the filesystem is made explicit: the
rule directory is either absent (`none`) or a listing of file names paired
with their parse outcome (`none` = `JSON.parse` threw). Files not ending in
`.json` are filtered out; parse failures are skipped; a parsed rule gets its
`_sourceFile` field set. -/
def loadRulesFrom (dir : Option (List (Str × Option RuleDoc))) : List RuleDoc :=
  match dir with
  | none => []
  | some files =>
    (files.filter (fun f => endsWithL ".json".toList f.1)).filterMap
      (fun f => match f.2 with
        | none => none
        | some r => some { r with sourceFile := f.1 })

/-- `loadDesignRules` with the module-level `_cachedRules` threaded
explicitly: returns the rule list and the updated cache. A non-null cache
(JS: any array, empty included, is truthy) is returned as-is without
touching the directory. -/
def loadDesignRules (cache : Option (List RuleDoc))
    (dir : Option (List (Str × Option RuleDoc))) :
    List RuleDoc × Option (List RuleDoc) :=
  match cache with
  | some rs => (rs, some rs)
  | none =>
    let rs := loadRulesFrom dir
    (rs, some rs)

theorem loadRulesFrom_skip (pre post : List (Str × Option RuleDoc)) (f : Str) :
    loadRulesFrom (some (pre ++ (f, none) :: post)) =
      loadRulesFrom (some (pre ++ post)) := by
  simp only [loadRulesFrom, List.filter_append, List.filter_cons,
    List.filterMap_append]
  split
  · simp [List.filterMap_cons]
  · rfl

/-- C7: rule loading is non-fatal and memoized: a document that fails to
parse is skipped while the remaining rules still load; an absent rule
directory yields the empty rule set; a first load fills the cache; and any
later call with that cache returns the identical pair whatever the
directory now holds (no re-read). -/
theorem claim7_rules :
    (∀ pre post f, loadRulesFrom (some (pre ++ (f, none) :: post)) =
      loadRulesFrom (some (pre ++ post))) ∧
    loadDesignRules none none = ([], some []) ∧
    (∀ dir, loadDesignRules none dir =
      (loadRulesFrom dir, some (loadRulesFrom dir))) ∧
    (∀ dir dir1, loadDesignRules (loadDesignRules none dir).2 dir1 =
      loadDesignRules none dir) ∧
    (∀ rs dir dir1, loadDesignRules (some rs) dir =
      loadDesignRules (some rs) dir1) := by
  exact ⟨loadRulesFrom_skip, rfl, fun _ => rfl, fun _ _ => rfl,
    fun _ _ _ => rfl⟩

/-- Result triple of `detectHardcodedValue`. -/
structure HardcodedResult where
  isHardcoded : Bool
  suggestion : Option Str
  category : Option Str
deriving Repr, DecidableEq

def hexDigit (c : Char) : Bool :=
  c.isDigit || ('a' ≤ c && c ≤ 'f') || ('A' ≤ c && c ≤ 'F')

/-- `/^#[0-9a-fA-F]\x7b3,8\x7d$/`. -/
def isHexColor (l : Str) : Bool :=
  match l with
  | '#' :: rest => rest.all hexDigit && 3 ≤ rest.length && rest.length ≤ 8
  | _ => false

/-- Consume `\d+(\.\d+)?` at the start; `none` when it cannot match. -/
def numThen (l : Str) : Option Str :=
  let d := l.takeWhile Char.isDigit
  let r := l.dropWhile Char.isDigit
  if d.isEmpty then none
  else match r with
    | '.' :: r2 =>
      if (r2.takeWhile Char.isDigit).isEmpty then none
      else some (r2.dropWhile Char.isDigit)
    | _ => some r

/-- `/^\d+(\.\d+)?(u1|u2|...)$/`. -/
def numUnit (units : List Str) (l : Str) : Bool :=
  match numThen l with
  | none => false
  | some rest => units.any (fun u => rest = u)

def spacingProps : List Str :=
  ["padding", "margin", "gap", "padding-top", "padding-bottom", "padding-left",
   "padding-right", "margin-top", "margin-bottom", "margin-left",
   "margin-right"].map String.toList

/-- `detectHardcodedValue(value, cssProperty)`. -/
def detectHardcodedValue (value : Str) (cssProperty : Str) : HardcodedResult :=
  if value.isEmpty || containsSub "var(".toList value then ⟨false, none, none⟩
  else
    let trimmed := trimL value
    if (cssProperty = "color".toList || cssProperty = "background-color".toList
          || cssProperty = "border-color".toList)
        && (isHexColor trimmed || startsWithL "rgb(".toList trimmed
          || startsWithL "rgba(".toList trimmed
          || startsWithL "hsl(".toList trimmed
          || startsWithL "hsla(".toList trimmed) then
      ⟨true,
        some "Use a --ks-text-color-*, --ks-background-color-*, or --ks-border-color-* token".toList,
        some "hardcoded-color".toList⟩
    else if spacingProps.any (fun p => cssProperty = p)
        && numUnit ["px".toList, "rem".toList, "em".toList] trimmed then
      ⟨true, some "Use a --ks-spacing-* token".toList,
        some "hardcoded-spacing".toList⟩
    else if cssProperty = "border-radius".toList
        && numUnit ["px".toList, "rem".toList, "em".toList, "%".toList]
          trimmed then
      ⟨true, some "Use a --ks-border-radius-* token".toList,
        some "hardcoded-border-radius".toList⟩
    else if cssProperty = "font-weight".toList
        && (trimmed.all Char.isDigit && trimmed.length = 3) then
      ⟨true, some "Use a --ks-font-weight-* token".toList,
        some "hardcoded-font-weight".toList⟩
    else if cssProperty = "box-shadow".toList
        && (!containsSub "var(".toList trimmed && trimmed ≠ "none".toList) then
      ⟨true, some "Use a --ks-box-shadow-* token".toList,
        some "hardcoded-box-shadow".toList⟩
    else ⟨false, none, none⟩

def primitiveColorPats : List Str :=
  ["--ks-color-primary-alpha-", "--ks-color-primary-to-",
   "--ks-color-primary-inverted-alpha-", "--ks-color-primary-inverted-to-",
   "--ks-color-fg-alpha-", "--ks-color-fg-to-", "--ks-color-fg-inverted-",
   "--ks-color-bg-inverted", "--ks-color-link-to-",
   "--ks-color-link-inverted-to-", "--ks-color-positive-alpha-",
   "--ks-color-positive-to-", "--ks-color-negative-alpha-",
   "--ks-color-negative-to-", "--ks-color-notice-alpha-",
   "--ks-color-notice-to-", "--ks-color-informative-alpha-",
   "--ks-color-informative-to-"].map String.toList

/-- `isPrimitiveColorToken(tokenName)`. -/
def isPrimitiveColorToken (tn : Str) : Bool :=
  primitiveColorPats.any (fun p => startsWithL p tn)

/-- `validateTokenExistence(tokenName)` with the awaited registries passed
explicitly: the global token map and the component-token name list. -/
def validateTokenExistence (globalTokens : List (Str × TokenData))
    (componentNames : List Str) (tokenName : Str) : Bool :=
  let normalized := if startsWithL "--".toList tokenName then tokenName
    else '-' :: '-' :: tokenName
  (lookupTok globalTokens normalized).isSome
    || componentNames.any (fun n => n = normalized)

/-- One violation record of the validation engine. -/
structure Violation where
  severity : Str
  ruleId : Str
  ruleName : Str
  token : Str
  message : Str
  suggestion : Option Str
  rationale : Str
deriving Repr, DecidableEq

/-- The hardcoded-value violation of check 1. -/
def hardcodedViolation (rawValue cssProperty : Str) (hd : HardcodedResult) :
    Violation :=
  ⟨"critical".toList, "hardcoded-value".toList,
    "Hardcoded Value Detection".toList, rawValue,
    "Hardcoded ".toList ++ hd.category.getD [] ++ " value \"".toList
      ++ rawValue ++ "\" for ".toList ++ cssProperty
      ++ ". This bypasses the token system and breaks theming.".toList,
    hd.suggestion,
    "Hardcoded values can\x27t be themed and don\x27t respond to design system changes".toList⟩

/-- The phantom-token violation of check 2. -/
def phantomViolation (tn : Str) : Violation :=
  ⟨"critical".toList, "token-existence".toList,
    "Phantom Token Detection".toList, tn,
    "Phantom token: \"".toList ++ tn
      ++ "\" does not exist in the design system. It will silently fail at runtime.".toList,
    some "Search for similar tokens using search_tokens or get_color_palette".toList,
    "Phantom tokens produce invisible failures — the CSS property falls through to inherited/initial value".toList⟩

/-- JS `a || "default"` on a possibly-absent string (empty counts falsy). -/
def jsOr (o : Option Str) (d : Str) : Str :=
  match o with
  | some s => if s.isEmpty then d else s
  | none => d

/-- Check 3: primitive color token used directly. -/
def check3 (rules : List RuleDoc) (tn cssProperty : Str) : List Violation :=
  if isPrimitiveColorToken tn then
    let semanticRule := rules.find? (fun r => r.id = "color-semantic-layer".toList)
    [⟨"warning".toList, "color-semantic-layer".toList,
      jsOr (semanticRule.map (fun r => r.name)) "Use Semantic Color Tokens".toList,
      tn,
      "Primitive color token \"".toList ++ tn
        ++ "\" used directly. Prefer semantic tokens (--ks-text-color-*, --ks-background-color-*, --ks-border-color-*).".toList,
      some (jsOr (semanticRule.bind (fun r => lookupA r.semanticAlternatives cssProperty))
        "Use the appropriate semantic color token layer".toList),
      "Primitive color tokens bypass the semantic layer, making intent unclear and theming fragile".toList⟩]
  else []

def tcAlts : List Str :=
  ["interactive", "hover", "active", "selected", "base"].map String.toList

def bgAlts : List Str :=
  ["interactive", "hover", "active", "selected", "disabled", "base",
   "translucent"].map String.toList

/-- `.replace(/PAT/, "")` for a literal pattern: drop the first occurrence. -/
def removeFirstSub (pat : Str) : Str → Str
  | [] => []
  | c :: cs =>
    if startsWithL pat (c :: cs) then (c :: cs).drop pat.length
    else c :: removeFirstSub pat cs

/-- The regex replace deleting from the first `-alt` match to the end of the
string (dash, one alternative, then dot-star): truncate at the first `-alt`. -/
def truncAtAlt (alts : List Str) : Str → Str
  | [] => []
  | c :: cs =>
    if alts.any (fun a => startsWithL ('-' :: a) (c :: cs)) then []
    else c :: truncAtAlt alts cs

/-- `s.replace(/s$/, "").replace(/ing$/, "").replace(/line$/, "line")`. -/
def stemWord (s : Str) : Str :=
  let s1 := if endsWithL ['s'] s then s.dropLast else s
  if endsWithL "ing".toList s1 then s1.take (s1.length - 3) else s1

def dashToSpace (l : Str) : Str := l.map (fun c => if c = '-' then ' ' else c)

/-- JS `split(" ")` (keeps empty pieces). -/
def splitSp : Str → List Str
  | [] => [[]]
  | c :: cs =>
    if c = ' ' then [] :: splitSp cs
    else
      match splitSp cs with
      | [] => [[c]]
      | l :: ls => (c :: l) :: ls

/-- The fuzzy context test of check 4 (`includes` plus per-word stems). -/
def ctxHit (allCtx ctx : Str) : Bool :=
  let ctxNorm := dashToSpace (lowerL ctx)
  containsSub ctxNorm allCtx
    || (splitSp ctxNorm).any (fun w => containsSub (stemWord w) allCtx)

/-- The plain context test of checks 5 and 6. -/
def ctxHitPlain (allCtx ctx : Str) : Bool :=
  containsSub (dashToSpace (lowerL ctx)) allCtx

/-- The `"tok" used for "el"[ in ctx context] — this token is for role.`
message of checks 4 and 5. -/
def usedForMsg (tn el dc role : Str) (dcTruthy : Bool) : Str :=
  "\"".toList ++ tn ++ "\" used for \"".toList ++ el ++ "\"".toList
    ++ (if dcTruthy then " in ".toList ++ dc ++ " context".toList else [])
    ++ " — this token is for ".toList ++ role ++ ".".toList

/-- Check 4: text-color hierarchy. -/
def check4 (rules : List RuleDoc) (tn : Str)
    (element designContext : Option Str) : List Violation :=
  match rules.find? (fun r => r.id = "text-color-hierarchy".toList) with
  | none => []
  | some rule =>
    if startsWithL "--ks-text-color-".toList tn then
      match lookupA rule.tokens
          (truncAtAlt tcAlts (removeFirstSub "-inverted".toList tn)) with
      | none => []
      | some cfg =>
        if truthyO element then
          let allCtx := trimL (lowerL (element.getD [])
            ++ ' ' :: lowerL (designContext.getD []))
          if (cfg.invalidContexts.getD []).any (ctxHit allCtx) then
            let validTokens := (rule.tokens.filter
              (fun p => (p.2.validContexts.getD []).any (ctxHit allCtx))).map
                (fun p => p.1)
            [⟨"warning".toList, "text-color-hierarchy".toList, rule.name, tn,
              usedForMsg tn (element.getD []) (designContext.getD []) cfg.role
                (truthyO designContext),
              some (if validTokens.length > 0 then
                  "Consider using ".toList
                    ++ joinSep " or ".toList validTokens ++ " instead".toList
                else
                  "Check the text-color hierarchy for the appropriate token".toList),
              cfg.rationale⟩]
          else []
        else []
    else []

/-- Check 5: background-color layers. -/
def check5 (rules : List RuleDoc) (tn : Str)
    (element designContext : Option Str) : List Violation :=
  match rules.find? (fun r => r.id = "background-color-layers".toList) with
  | none => []
  | some rule =>
    if startsWithL "--ks-background-color-".toList tn then
      match lookupA rule.tokens
          (truncAtAlt bgAlts (removeFirstSub "-inverted".toList tn)) with
      | none => []
      | some cfg =>
        if truthyO element then
          let allCtx := trimL (lowerL (element.getD [])
            ++ ' ' :: lowerL (designContext.getD []))
          if (cfg.invalidContexts.getD []).any (ctxHitPlain allCtx) then
            [⟨"info".toList, "background-color-layers".toList, rule.name, tn,
              usedForMsg tn (element.getD []) (designContext.getD []) cfg.role
                (truthyO designContext),
              some "Check background-color layer hierarchy for the appropriate token".toList,
              cfg.rationale⟩]
          else []
        else []
    else []

/-- Check 6: font-family roles. -/
def check6 (rules : List RuleDoc) (tn : Str)
    (element designContext : Option Str) : List Violation :=
  match rules.find? (fun r => r.id = "font-family-roles".toList) with
  | none => []
  | some rule =>
    if startsWithL "--ks-font-family-".toList tn then
      match lookupA rule.tokens tn with
      | none => []
      | some cfg =>
        if truthyO element then
          let allCtx := lowerL (element.getD [])
            ++ ' ' :: lowerL (designContext.getD [])
          if (cfg.invalidContexts.getD []).any (ctxHitPlain allCtx) then
            [⟨"warning".toList, "font-family-roles".toList, rule.name, tn,
              "\"".toList ++ tn ++ "\" used for \"".toList
                ++ element.getD [] ++ "\" — this font family is for ".toList
                ++ cfg.role ++ ".".toList,
              some "Check font-family role assignments for the appropriate token".toList,
              cfg.rationale⟩]
          else []
        else []
    else []

/-- `validateSingleTokenUsage` with the awaited registries passed explicitly
(check 7 of the source is a no-op that pushes nothing). -/
def validateSingleTokenUsage (globalTokens : List (Str × TokenData))
    (componentNames : List Str) (tokenName : Option Str) (cssProperty : Str)
    (element designContext rawValue : Option Str) (rules : List RuleDoc) :
    List Violation :=
  if truthyO rawValue && !truthyO tokenName then
    let hd := detectHardcodedValue (rawValue.getD []) cssProperty
    if hd.isHardcoded then [hardcodedViolation (rawValue.getD []) cssProperty hd]
    else []
  else if !truthyO tokenName then []
  else
    let tn := tokenName.getD []
    if !validateTokenExistence globalTokens componentNames tn then
      [phantomViolation tn]
    else
      check3 rules tn cssProperty ++ check4 rules tn element designContext
        ++ check5 rules tn element designContext
        ++ check6 rules tn element designContext

example : (detectHardcodedValue "#ff0000".toList "color".toList).isHardcoded
    = true := by decide

example : detectHardcodedValue "12px".toList "padding".toList =
    ⟨true, some "Use a --ks-spacing-* token".toList,
      some "hardcoded-spacing".toList⟩ := by decide

example : detectHardcodedValue "var(--ks-spacing-m)".toList "padding".toList =
    ⟨false, none, none⟩ := by decide

example : detectHardcodedValue "0.5rem".toList "border-radius".toList =
    ⟨true, some "Use a --ks-border-radius-* token".toList,
      some "hardcoded-border-radius".toList⟩ := by decide

example :
    validateSingleTokenUsage
      [("--ks-text-color-copy".toList,
        ⟨"#111".toList, "f".toList, "c".toList, none, none⟩)] []
      (some "--ks-text-color-copy".toList) "color".toList
      (some "hero headline".toList) none none
      [⟨"text-color-hierarchy".toList, "Text Color Hierarchy".toList,
        [("--ks-text-color-copy".toList,
          ⟨"body copy".toList, "why".toList,
            some ["buttons".toList], some ["headings".toList]⟩)],
        [], "r.json".toList⟩] =
      [⟨"warning".toList, "text-color-hierarchy".toList,
        "Text Color Hierarchy".toList, "--ks-text-color-copy".toList,
        usedForMsg "--ks-text-color-copy".toList "hero headline".toList []
          "body copy".toList false,
        some "Check the text-color hierarchy for the appropriate token".toList,
        "why".toList⟩] := by decide

/-- C1: a truthy token name that exists in neither registry yields exactly
one violation — the phantom-token one, severity "critical", ruleId
"token-existence" — and the result does not depend on the rules or the
context arguments (no later check runs). -/
theorem claim1_phantom (gt : List (Str × TokenData)) (cn : List Str)
    (tn cssProperty : Str) (element designContext rawValue : Option Str)
    (rules : List RuleDoc)
    (htn : tn ≠ [])
    (hex : validateTokenExistence gt cn tn = false) :
    validateSingleTokenUsage gt cn (some tn) cssProperty element designContext
        rawValue rules = [phantomViolation tn] ∧
    (phantomViolation tn).severity = "critical".toList ∧
    (phantomViolation tn).ruleId = "token-existence".toList := by
  refine ⟨?_, rfl, rfl⟩
  have htr : truthyO (some tn) = true := by
    cases tn with
    | nil => exact absurd rfl htn
    | cons c cs => rfl
  simp [validateSingleTokenUsage, htr, hex]

/-- C1 witness: the phantom usage of the spec scenario against empty
registries. -/
theorem claim1_phantom_witness :
    validateSingleTokenUsage [] [] (some "--ks-does-not-exist".toList)
        "color".toList none none none [] =
      [phantomViolation "--ks-does-not-exist".toList] ∧
    (phantomViolation "--ks-does-not-exist".toList).severity =
      "critical".toList ∧
    (phantomViolation "--ks-does-not-exist".toList).ruleId =
      "token-existence".toList :=
  claim1_phantom [] [] "--ks-does-not-exist".toList "color".toList none none
    none [] (by decide) (by decide)

/-- C5: a truthy raw value with no token name that the hardcoded-value table
flags for its cssProperty yields exactly one violation — severity
"critical", ruleId "hardcoded-value" — independent of registries and rules
(no later check runs). -/
theorem claim5_hardcoded (gt : List (Str × TokenData)) (cn : List Str)
    (cssProperty : Str) (element designContext : Option Str) (rv : Str)
    (rules : List RuleDoc)
    (hrv : rv ≠ [])
    (hhc : (detectHardcodedValue rv cssProperty).isHardcoded = true) :
    validateSingleTokenUsage gt cn none cssProperty element designContext
        (some rv) rules =
      [hardcodedViolation rv cssProperty (detectHardcodedValue rv cssProperty)] ∧
    (hardcodedViolation rv cssProperty
      (detectHardcodedValue rv cssProperty)).severity = "critical".toList ∧
    (hardcodedViolation rv cssProperty
      (detectHardcodedValue rv cssProperty)).ruleId =
      "hardcoded-value".toList := by
  refine ⟨?_, rfl, rfl⟩
  have htr : truthyO (some rv) = true := by
    cases rv with
    | nil => exact absurd rfl hrv
    | cons c cs => rfl
  have hnone : truthyO (none : Option Str) = false := rfl
  simp [validateSingleTokenUsage, htr, hnone, hhc]

/-- C5 witness: the `#ff0000` / `color` usage of the spec scenario. -/
theorem claim5_hardcoded_witness :
    validateSingleTokenUsage [] [] none "color".toList none none
        (some "#ff0000".toList) [] =
      [hardcodedViolation "#ff0000".toList "color".toList
        (detectHardcodedValue "#ff0000".toList "color".toList)] ∧
    (hardcodedViolation "#ff0000".toList "color".toList
      (detectHardcodedValue "#ff0000".toList "color".toList)).severity =
      "critical".toList ∧
    (hardcodedViolation "#ff0000".toList "color".toList
      (detectHardcodedValue "#ff0000".toList "color".toList)).ruleId =
      "hardcoded-value".toList :=
  claim5_hardcoded [] [] "color".toList none none "#ff0000".toList []
    (by decide) (by decide)

/-- C9: a truthy raw value with no token name yields at most one violation;
a value containing "var(" yields none; and the result coincides with the
result under empty registries and empty rules (neither registry nor rules
are consulted). -/
theorem claim9_rawvalue (gt : List (Str × TokenData)) (cn : List Str)
    (cssProperty : Str) (element designContext : Option Str) (rv : Str)
    (rules : List RuleDoc)
    (hrv : rv ≠ []) :
    (validateSingleTokenUsage gt cn none cssProperty element designContext
        (some rv) rules).length ≤ 1 ∧
    (containsSub "var(".toList rv = true →
      validateSingleTokenUsage gt cn none cssProperty element designContext
        (some rv) rules = []) ∧
    validateSingleTokenUsage gt cn none cssProperty element designContext
        (some rv) rules =
      validateSingleTokenUsage [] [] none cssProperty element designContext
        (some rv) [] := by
  have htr : truthyO (some rv) = true := by
    cases rv with
    | nil => exact absurd rfl hrv
    | cons c cs => rfl
  have hnone : truthyO (none : Option Str) = false := rfl
  refine ⟨?_, ?_, ?_⟩
  · cases hic : (detectHardcodedValue rv cssProperty).isHardcoded <;>
      simp [validateSingleTokenUsage, htr, hnone, hic]
  · intro hv
    have hd0 : detectHardcodedValue rv cssProperty = ⟨false, none, none⟩ := by
      unfold detectHardcodedValue
      rw [hv]
      simp
    simp [validateSingleTokenUsage, htr, hnone, hd0]
  · simp [validateSingleTokenUsage, htr, hnone]

/-- C9 witness: a `var(...)` raw value for `color` yields zero violations
even against a non-empty registry. -/
theorem claim9_rawvalue_witness :
    (validateSingleTokenUsage [] [] none "color".toList none none
        (some "var(--x)".toList) []).length ≤ 1 ∧
    (containsSub "var(".toList "var(--x)".toList = true →
      validateSingleTokenUsage [] [] none "color".toList none none
        (some "var(--x)".toList) [] = []) ∧
    validateSingleTokenUsage [] [] none "color".toList none none
        (some "var(--x)".toList) [] =
      validateSingleTokenUsage [] [] none "color".toList none none
        (some "var(--x)".toList) [] :=
  claim9_rawvalue [] [] "color".toList none none "var(--x)".toList []
    (by decide)

/-- Witness for C2's amended invariant at concrete inputs: a literal with no
reference, a pure `var()` global reference, and the calculated case whose
reference is the leftmost extractable one. -/
theorem claim2_amended_witness :
    (classifyTokenValue "#fff".toList).referencedToken = none ∧
    (classifyTokenValue "var(--ks-color-primary)".toList).referencedToken ≠
      none ∧
    (classifyTokenValue "calc(var(--ks-spacing-m) * 2)".toList).referencedToken
      = findVarRef (trimL "calc(var(--ks-spacing-m) * 2)".toList) :=
  ⟨(claim2_amended "#fff".toList).2.1 (by decide),
   (claim2_amended "var(--ks-color-primary)".toList).2.2.1 (Or.inl (by decide)),
   (claim2_amended "calc(var(--ks-spacing-m) * 2)".toList).2.2.2 (by decide)⟩

example : singleLineBlock "/* */".toList = some [' '] := by decide

example : singleLineBlock "/*   */".toList = some [' '] := by decide

example : singleLineBlock "/**/".toList = none := by decide

example : singleLineBlock "/*/".toList = none := by decide

example : singleLineBlock "/* Sizes */".toList = some "Sizes".toList := by
  decide

example :
    parseTokenFileM "/* */\n--a: 1; // d\n".toList "f".toList "c".toList =
      [("--a".toList,
        ⟨"1".toList, "f".toList, "c".toList, none, some "  | d".toList⟩)] := by
  decide
